import Mathlib

/-!
# Laba4: the Gronsfeld cipher (`laba4.1`) and the route-permutation cipher (`laba4.2`)

A shallow embedding of `modAlphaCipher` (modGronsfeld.h / modGronsfeld.cpp) and of
`modPermutationCipher` (modPermutation.h / modPermutation.cpp), followed by theorems
about them.

Conventions of the embedding.

* `wchar_t` is `Char` and `std::wstring` is `List Char` (one list element per wide
  character, as on a platform with a 32-bit `wchar_t`).
* `std::vector<int>` is `List Int`; `size_t` is a `Nat` below `2 ^ 64`, and every
  conversion of an `int` to `size_t` is written out as `toSizeT` (reduction modulo
  `2 ^ 64`). Sums of two `int`s stay far below `2 ^ 31` for every value the classes can
  hold (alphabet indices and digits), so `int` addition is `Int` addition.
* A C++ function that can throw returns `Except Exn _`. `Exn` also has the two outcomes
  that are undefined behaviour in C++ and are reachable in the source text: remainder by
  zero and a subscript past the end of a vector.
* A member function that is not `const` and touches a data member through a mutating
  operation (`std::map::operator[]`) takes the object and returns the object after the
  call next to its result.
* Loop counters are natural numbers. In modPermutation.cpp the counter is a `size_t`,
  which no text outgrows. In modGronsfeld.cpp the loops of `encrypt` and `decrypt` count
  with `unsigned i` against `work.size()`: they are followed here for texts of fewer
  than `2 ^ 32` symbols only (from `2 ^ 32` symbols on the counter of the source wraps
  to 0 and the loop is never left). The lemmas are statements about the definitions as
  they stand; in the section "Claims" every theorem that asserts for an arbitrary text
  that `encrypt` or `decrypt` of `modAlphaCipher` returns has `text.length < 2 ^ 32` as
  a hypothesis.
-/

/-- Outcomes of a call other than a normal return. -/
inductive Exn where
  /-- `std::invalid_argument` with its message. -/
  | invalid_argument (what : String)
  /-- `std::out_of_range` with its message. -/
  | out_of_range (what : String)
  /-- Integer remainder with a zero divisor (undefined behaviour). -/
  | division_by_zero
  /-- `operator[]` of a vector or string past its end (undefined behaviour). -/
  | bad_subscript
  deriving DecidableEq, Repr

deriving instance DecidableEq for Except

/-- Conversion of an `int` to `size_t` (64-bit): reduction modulo `2 ^ 64`. -/
def toSizeT (v : Int) : Nat := (v % 2 ^ 64).toNat

/-! ## laba4.1: `modAlphaCipher` -/

/-- A `std::map<wchar_t, int>`: association list with unique keys, ordered by key. -/
abbrev WMap := List (Char × Int)

/-- Member `find` of the map: the value stored under `c`, `none` for `end()`. -/
def WMap.find : WMap → Char → Option Int
  | [], _ => none
  | (k, v) :: m, c => if c = k then some v else WMap.find m c

/-- The assignment `m[c] = v`: overwrites the entry of `c` or inserts one in key order. -/
def WMap.assign : WMap → Char → Int → WMap
  | [], c, v => [(c, v)]
  | (k, w) :: m, c, v =>
    if c = k then (k, v) :: m
    else if c < k then (c, v) :: (k, w) :: m
    else (k, w) :: WMap.assign m c v

/-- The read `m[c]`: the stored value; a missing key is first inserted with value `0`. -/
def WMap.subscript (m : WMap) (c : Char) : Int × WMap :=
  match m.find c with
  | some v => (v, m)
  | none => (0, m.assign c 0)

/-- Data members of `modAlphaCipher`. -/
structure modAlphaCipher where
  /-- The alphabet, `numAlpha`. -/
  numAlpha : List Char
  /-- The symbol to index table, `alphaNum`. -/
  alphaNum : WMap
  /-- The shift sequence, `key`. -/
  key : List Int
  deriving DecidableEq, Repr

/-- Default member initialiser of `numAlpha` (modGronsfeld.h, line 31). -/
def numAlphaInit : List Char := "АБВГДЕЁЖЗИЙКЛМНОПРСТУФХЦЧШЩЪЫЬЭЮЯ".toList

/-- The constructor's loop `for (i = 0; i < numAlpha.size(); i++) alphaNum[numAlpha[i]] = i`,
from counter value `i` on, over the symbols not yet visited. -/
def fillAlphaNum : List Char → Nat → WMap → WMap
  | [], _, m => m
  | c :: cs, i, m => fillAlphaNum cs (i + 1) (m.assign c (i : Int))

/-- The overload `convert(const std::wstring&)`: every symbol is looked up with `find`
(a missing one throws), then read with `alphaNum[c]`. -/
def modAlphaCipher.convert_wstring : modAlphaCipher → List Char →
    Except Exn (List Int) × modAlphaCipher
  | self, [] => (.ok [], self)
  | self, c :: s =>
    match self.alphaNum.find c with
    | none => (.error (.invalid_argument "Invalid character in text."), self)
    | some _ =>
      let r := self.alphaNum.subscript c
      match modAlphaCipher.convert_wstring { self with alphaNum := r.2 } s with
      | (.ok result, self') => (.ok (r.1 :: result), self')
      | (.error e, self') => (.error e, self')

/-- The overload `convert(const std::vector<int>&)`; it is `const` in effect. -/
def convert_vector (numAlpha : List Char) : List Int → Except Exn (List Char)
  | [] => .ok []
  | v :: vs =>
    if toSizeT v ≥ numAlpha.length then .error (.invalid_argument "Index out of bounds")
    else
      match numAlpha[toSizeT v]? with
      | none => .error .bad_subscript
      | some c =>
        match convert_vector numAlpha vs with
        | .ok result => .ok (c :: result)
        | .error e => .error e

/-- The constructor `modAlphaCipher(const std::wstring& skey)`. -/
def modAlphaCipher.new (skey : List Char) : Except Exn modAlphaCipher :=
  let self : modAlphaCipher :=
    { numAlpha := numAlphaInit, alphaNum := fillAlphaNum numAlphaInit 0 [], key := [] }
  match self.convert_wstring skey with
  | (.ok k, self') => .ok { self' with key := k }
  | (.error e, _) => .error e

/-- The loop of `encrypt` from counter value `i` on, over the elements of `work` not yet
visited: `work[i] = (work[i] + key[i % key.size()]) % numAlpha.size()`. The counter is
the `unsigned i` of the source as long as `work.size() < 2 ^ 32`. -/
def encryptLoop (key : List Int) (size : Nat) : Nat → List Int → Except Exn (List Int)
  | _, [] => .ok []
  | i, w :: work =>
    if key.length = 0 then .error .division_by_zero
    else
      match key[i % key.length]? with
      | none => .error .bad_subscript
      | some k =>
        if size = 0 then .error .division_by_zero
        else
          match encryptLoop key size (i + 1) work with
          | .ok rest => .ok (((toSizeT (w + k) % size : Nat) : Int) :: rest)
          | .error e => .error e

/-- The loop of `decrypt`:
`work[i] = (work[i] + numAlpha.size() - key[i % key.size()]) % numAlpha.size()`,
all of it in `size_t` arithmetic. The counter is the `unsigned i` of the source as long
as `work.size() < 2 ^ 32`. -/
def decryptLoop (key : List Int) (size : Nat) : Nat → List Int → Except Exn (List Int)
  | _, [] => .ok []
  | i, w :: work =>
    if key.length = 0 then .error .division_by_zero
    else
      match key[i % key.length]? with
      | none => .error .bad_subscript
      | some k =>
        if size = 0 then .error .division_by_zero
        else
          match decryptLoop key size (i + 1) work with
          | .ok rest =>
            .ok ((((((toSizeT w + size) % 2 ^ 64 + 2 ^ 64 - toSizeT k) % 2 ^ 64) % size : Nat)
              : Int) :: rest)
          | .error e => .error e

/-- The member `encrypt`. The handler of its `try` block logs and rethrows, so the
exception leaves unchanged. -/
def modAlphaCipher.encrypt (self : modAlphaCipher) (open_text : List Char) :
    Except Exn (List Char) × modAlphaCipher :=
  match self.convert_wstring open_text with
  | (.error e, self') => (.error e, self')
  | (.ok work, self') =>
    match encryptLoop self'.key self'.numAlpha.length 0 work with
    | .error e => (.error e, self')
    | .ok work' => (convert_vector self'.numAlpha work', self')

/-- The member `decrypt`. -/
def modAlphaCipher.decrypt (self : modAlphaCipher) (cipher_text : List Char) :
    Except Exn (List Char) × modAlphaCipher :=
  match self.convert_wstring cipher_text with
  | (.error e, self') => (.error e, self')
  | (.ok work, self') =>
    match decryptLoop self'.key self'.numAlpha.length 0 work with
    | .error e => (.error e, self')
    | .ok work' => (convert_vector self'.numAlpha work', self')

/-! ## laba4.2: `modPermutationCipher` -/

/-- Data members of `modPermutationCipher`. -/
structure modPermutationCipher where
  /-- The combined alphabet, `alphabet`. -/
  alphabet : List Char
  /-- The shift sequence, `key`. -/
  key : List Int
  deriving DecidableEq, Repr

/-- The value assigned to `alphabet` by the constructor (modPermutation.cpp, line 21). -/
def alphabetInit : List Char :=
  "АБВГДЕЁЖЗИЙКЛМНОПРСТУФХЦЧШЩЪЫЬЭЮЯabcdefghijklmnopqrstuvwxyz".toList

/-- The library predicate `iswdigit`: the ten characters `0` to `9`. -/
def iswdigit (ch : Char) : Bool := decide (48 ≤ ch.toNat ∧ ch.toNat ≤ 57)

/-- The value of a sequence of decimal digits, most significant first. -/
def decimalValue (s : List Char) : Nat := s.foldl (fun n ch => 10 * n + (ch.toNat - 48)) 0

/-- The library function `std::stoi` on a wide string that is empty or begins with a
digit, the only strings `validateKey` passes to it: the leading digits are read as a
decimal number; no digit at all throws `std::invalid_argument`, a value above `INT_MAX`
throws `std::out_of_range`. -/
def stoi (s : List Char) : Except Exn Int :=
  let digits := s.takeWhile iswdigit
  if digits.isEmpty then .error (.invalid_argument "stoi")
  else if decimalValue digits > 2147483647 then .error (.out_of_range "stoi")
  else .ok (decimalValue digits : Int)

/-- The loop of `validateKey`: the first character that is not a digit throws. -/
def validateKeyLoop : List Char → Except Exn Unit
  | [] => .ok ()
  | ch :: s =>
    if !iswdigit ch then
      .error (.invalid_argument
        "Ошибка: ключ должен состоять только из цифр. Пожалуйста, введите положительное целое число.")
    else validateKeyLoop s

/-- The member `validateKey`; it reads no data member. -/
def validateKey (skey : List Char) : Except Exn Unit :=
  match validateKeyLoop skey with
  | .error e => .error e
  | .ok () =>
    match stoi skey with
    | .error e => .error e
    | .ok keyValue =>
      if keyValue ≤ 0 then
        .error (.invalid_argument
          "Ошибка: ключ должен быть положительным целым числом. Пожалуйста, введите корректный ключ.")
      else .ok ()

/-- The constructor `modPermutationCipher(const std::wstring& skey)`; each key
character `ch` contributes `wchar_t(ch) - L'0'`. -/
def modPermutationCipher.new (skey : List Char) : Except Exn modPermutationCipher :=
  if skey.isEmpty then
    .error (.invalid_argument
      "Ошибка: ключ не может быть пустым. Пожалуйста, введите положительное целое число.")
  else
    match validateKey skey with
    | .error e => .error e
    | .ok () =>
      .ok { alphabet := alphabetInit, key := skey.map (fun ch => (ch.toNat : Int) - 48) }

/-- The member `find` of `std::wstring` for one character: the position of its first
occurrence, `none` for `npos`. -/
def wstring_find : List Char → Char → Option Nat
  | [], _ => none
  | a :: s, ch => if a = ch then some 0 else (wstring_find s ch).map (· + 1)

/-- The loop of `validateText`: the first character not found in the alphabet throws. -/
def validateTextLoop (alphabet : List Char) : List Char → Except Exn Unit
  | [] => .ok ()
  | ch :: text =>
    match wstring_find alphabet ch with
    | none =>
      .error (.invalid_argument
        "Ошибка: текст должен содержать только буквы из заданного алфавита (русские и английские буквы).")
    | some _ => validateTextLoop alphabet text

/-- The member `validateText`. -/
def modPermutationCipher.validateText (self : modPermutationCipher) (text : List Char) :
    Except Exn Unit :=
  if text.isEmpty then
    .error (.invalid_argument
      "Ошибка: текст не может быть пустым. Пожалуйста, введите текст для шифрования/расшифрования.")
  else validateTextLoop self.alphabet text

/-- The loop of `modPermutationCipher::encrypt` from counter value `i` on: a character
the alphabet does not contain is skipped, any other one appends
`alphabet[(index + shift) % alphabet.size()]`, computed in `size_t`. -/
def permEncryptLoop (alphabet : List Char) (key : List Int) :
    Nat → List Char → Except Exn (List Char)
  | _, [] => .ok []
  | i, ch :: text =>
    match wstring_find alphabet ch with
    | none => permEncryptLoop alphabet key (i + 1) text
    | some index =>
      if key.length = 0 then .error .division_by_zero
      else
        match key[i % key.length]? with
        | none => .error .bad_subscript
        | some shift =>
          if alphabet.length = 0 then .error .division_by_zero
          else
            match alphabet[(index + toSizeT shift) % 2 ^ 64 % alphabet.length]? with
            | none => .error .bad_subscript
            | some c =>
              match permEncryptLoop alphabet key (i + 1) text with
              | .ok result => .ok (c :: result)
              | .error e => .error e

/-- The loop of `modPermutationCipher::decrypt`: appends
`alphabet[(index - shift + alphabet.size()) % alphabet.size()]`, computed in `size_t`
(the difference wraps modulo `2 ^ 64`). -/
def permDecryptLoop (alphabet : List Char) (key : List Int) :
    Nat → List Char → Except Exn (List Char)
  | _, [] => .ok []
  | i, ch :: text =>
    match wstring_find alphabet ch with
    | none => permDecryptLoop alphabet key (i + 1) text
    | some index =>
      if key.length = 0 then .error .division_by_zero
      else
        match key[i % key.length]? with
        | none => .error .bad_subscript
        | some shift =>
          if alphabet.length = 0 then .error .division_by_zero
          else
            match alphabet[((index + 2 ^ 64 - toSizeT shift) % 2 ^ 64 + alphabet.length)
                % 2 ^ 64 % alphabet.length]? with
            | none => .error .bad_subscript
            | some c =>
              match permDecryptLoop alphabet key (i + 1) text with
              | .ok result => .ok (c :: result)
              | .error e => .error e

/-- The member `modPermutationCipher::encrypt`. -/
def modPermutationCipher.encrypt (self : modPermutationCipher) (open_text : List Char) :
    Except Exn (List Char) :=
  match self.validateText open_text with
  | .error e => .error e
  | .ok () => permEncryptLoop self.alphabet self.key 0 open_text

/-- The member `modPermutationCipher::decrypt`. -/
def modPermutationCipher.decrypt (self : modPermutationCipher) (cipher_text : List Char) :
    Except Exn (List Char) :=
  match self.validateText cipher_text with
  | .error e => .error e
  | .ok () => permDecryptLoop self.alphabet self.key 0 cipher_text

/-! ## Lemmas on `modAlphaCipher` -/

theorem WMap.find_mem {m : WMap} {c : Char} {v : Int} (h : m.find c = some v) :
    (c, v) ∈ m := by
  induction m with
  | nil => simp [WMap.find] at h
  | cons p m ih =>
    obtain ⟨k, w⟩ := p
    simp only [WMap.find] at h
    split at h
    · rename_i hc
      simp only [Option.some.injEq] at h
      subst hc
      subst h
      exact List.mem_cons_self _ _
    · exact List.mem_cons_of_mem _ (ih h)

set_option maxRecDepth 100000 in
/-- The table built by the constructor sends every alphabet symbol to its position. -/
theorem alphaNum_find_of_mem : ∀ c ∈ numAlphaInit,
    (fillAlphaNum numAlphaInit 0 []).find c = some ((numAlphaInit.indexOf c : Nat) : Int) := by
  decide

set_option maxRecDepth 100000 in
/-- Every key of the table built by the constructor is an alphabet symbol. -/
theorem alphaNum_keys : ∀ p ∈ fillAlphaNum numAlphaInit 0 [], p.1 ∈ numAlphaInit := by
  decide

theorem alphaNum_find_of_not_mem {c : Char} (h : c ∉ numAlphaInit) :
    (fillAlphaNum numAlphaInit 0 []).find c = none := by
  cases hf : (fillAlphaNum numAlphaInit 0 []).find c with
  | none => rfl
  | some v => exact absurd (alphaNum_keys _ (WMap.find_mem hf)) h

/-- The overload `convert(const std::wstring&)` never changes the object, and its result is
decided by `find` alone. -/
theorem convert_wstring_eq (self : modAlphaCipher) (s : List Char) :
    self.convert_wstring s =
      (if ∀ c ∈ s, (self.alphaNum.find c).isSome then
          .ok (s.map fun c => (self.alphaNum.find c).getD 0)
        else .error (.invalid_argument "Invalid character in text."), self) := by
  induction s with
  | nil => simp [modAlphaCipher.convert_wstring]
  | cons c s ih =>
    cases hf : self.alphaNum.find c with
    | none => simp [modAlphaCipher.convert_wstring, hf]
    | some v =>
      have hself : ({ self with alphaNum := (self.alphaNum.subscript c).2 } : modAlphaCipher)
          = self := by
        simp [WMap.subscript, hf]
      have hv : (self.alphaNum.subscript c).1 = v := by simp [WMap.subscript, hf]
      by_cases hall : ∀ c ∈ s, (self.alphaNum.find c).isSome
      · rw [if_pos hall] at ih
        have hall2 : ∀ d ∈ c :: s, (self.alphaNum.find d).isSome := by
          intro d hd
          rcases List.mem_cons.1 hd with rfl | hd
          · simp [hf]
          · exact hall d hd
        rw [if_pos hall2]
        simp only [modAlphaCipher.convert_wstring, hf, hself, hv, ih]
        simp [hf]
      · rw [if_neg hall] at ih
        have hall2 : ¬ ∀ d ∈ c :: s, (self.alphaNum.find d).isSome :=
          fun h => hall fun d hd => h d (List.mem_cons_of_mem _ hd)
        rw [if_neg hall2]
        simp only [modAlphaCipher.convert_wstring, hf, hself, hv, ih]

theorem toSizeT_natCast {n : Nat} (h : n < 2 ^ 64) : toSizeT (n : Int) = n := by
  unfold toSizeT
  omega

theorem toSizeT_of_bounds {v : Int} {n : Nat} (h0 : 0 ≤ v) (h1 : v < n) (hn : n ≤ 2 ^ 63) :
    toSizeT v < n ∧ (toSizeT v : Int) = v := by
  unfold toSizeT
  omega

/-- Adding `b` modulo `n` and then subtracting it again, with the offset `n` that keeps
the difference non-negative, gives the index back. -/
theorem add_sub_mod_cancel {n a b : Nat} (ha : a < n) (hb : b ≤ n) :
    ((a + b) % n + n - b) % n = a := by
  by_cases h : a + b < n
  · rw [Nat.mod_eq_of_lt h]
    have : a + b + n - b = a + n := by omega
    rw [this, Nat.add_mod_right, Nat.mod_eq_of_lt ha]
  · have h1 : (a + b) % n = a + b - n := by
      rw [Nat.mod_eq_sub_mod (Nat.le_of_not_lt h)]
      exact Nat.mod_eq_of_lt (by omega)
    rw [h1]
    have : a + b - n + n - b = a := by omega
    rw [this, Nat.mod_eq_of_lt ha]

/-- Subtracting `b` modulo `n` (with the offset `n`) and then adding it again gives the
index back. -/
theorem sub_add_mod_cancel {n a b : Nat} (ha : a < n) (hb : b ≤ n) :
    ((a + n - b) % n + b) % n = a := by
  by_cases h : b ≤ a
  · have h1 : (a + n - b) % n = a - b := by
      have : a + n - b = a - b + n := by omega
      rw [this, Nat.add_mod_right]
      exact Nat.mod_eq_of_lt (by omega)
    rw [h1]
    have : a - b + b = a := by omega
    rw [this, Nat.mod_eq_of_lt ha]
  · by_cases hz : a + n - b = n
    · have hb0 : a = b := by omega
      omega
    · have h1 : (a + n - b) % n = a + n - b := Nat.mod_eq_of_lt (by omega)
      rw [h1]
      have : a + n - b + b = a + n := by omega
      rw [this, Nat.add_mod_right, Nat.mod_eq_of_lt ha]

/-- With a non-empty key the access `key[i % key.size()]` is inside the key. -/
theorem key_access {key : List Int} (hk : key ≠ []) (i : Nat) :
    ∃ k, k ∈ key ∧ key[i % key.length]? = some k := by
  have hlen : 0 < key.length := List.length_pos.2 hk
  have hlt : i % key.length < key.length := Nat.mod_lt _ hlen
  exact ⟨key[i % key.length], List.getElem_mem _, List.getElem?_eq_getElem hlt⟩

/-- With a non-empty key and a non-empty alphabet the loop of `encrypt` runs to its end,
keeps the length, and puts `(work[j] + key[j % key.size()]) % size` at place `j`. -/
theorem encryptLoop_spec {key : List Int} {size : Nat} (hk : key ≠ []) (hs : size ≠ 0) :
    ∀ (work : List Int) (i : Nat), ∃ r, encryptLoop key size i work = .ok r ∧
      r.length = work.length ∧
      ∀ j w, work[j]? = some w → ∃ k, key[(i + j) % key.length]? = some k ∧
        r[j]? = some ((toSizeT (w + k) % size : Nat) : Int) := by
  have hlen : key.length ≠ 0 := fun h => hk (List.length_eq_zero.1 h)
  intro work
  induction work with
  | nil => exact fun _ => ⟨[], rfl, rfl, by simp⟩
  | cons w work ih =>
    intro i
    obtain ⟨k, _, hki⟩ := key_access hk i
    obtain ⟨rest, h1, h2, h3⟩ := ih (i + 1)
    refine ⟨((toSizeT (w + k) % size : Nat) : Int) :: rest,
      by simp only [encryptLoop, hlen, hs, hki, h1, if_false], by simp [h2], ?_⟩
    intro j w1 hj
    cases j with
    | zero =>
      simp only [List.getElem?_cons_zero, Option.some.injEq] at hj
      subst hj
      exact ⟨k, by simpa using hki, by simp⟩
    | succ j =>
      simp only [List.getElem?_cons_succ] at hj
      obtain ⟨k2, hk2, hr⟩ := h3 j w1 hj
      refine ⟨k2, ?_, by simpa using hr⟩
      rw [← hk2]
      congr 2
      omega

/-- The same for the loop of `decrypt`, with
`(work[j] + size - key[j % key.size()]) % size` in `size_t` arithmetic at place `j`. -/
theorem decryptLoop_spec {key : List Int} {size : Nat} (hk : key ≠ []) (hs : size ≠ 0) :
    ∀ (work : List Int) (i : Nat), ∃ r, decryptLoop key size i work = .ok r ∧
      r.length = work.length ∧
      ∀ j w, work[j]? = some w → ∃ k, key[(i + j) % key.length]? = some k ∧
        r[j]? = some
          (((((toSizeT w + size) % 2 ^ 64 + 2 ^ 64 - toSizeT k) % 2 ^ 64) % size : Nat) : Int) := by
  have hlen : key.length ≠ 0 := fun h => hk (List.length_eq_zero.1 h)
  intro work
  induction work with
  | nil => exact fun _ => ⟨[], rfl, rfl, by simp⟩
  | cons w work ih =>
    intro i
    obtain ⟨k, _, hki⟩ := key_access hk i
    obtain ⟨rest, h1, h2, h3⟩ := ih (i + 1)
    refine ⟨(((((toSizeT w + size) % 2 ^ 64 + 2 ^ 64 - toSizeT k) % 2 ^ 64) % size : Nat) : Int)
      :: rest, by simp only [decryptLoop, hlen, hs, hki, h1, if_false], by simp [h2], ?_⟩
    intro j w1 hj
    cases j with
    | zero =>
      simp only [List.getElem?_cons_zero, Option.some.injEq] at hj
      subst hj
      exact ⟨k, by simpa using hki, by simp⟩
    | succ j =>
      simp only [List.getElem?_cons_succ] at hj
      obtain ⟨k2, hk2, hr⟩ := h3 j w1 hj
      refine ⟨k2, ?_, by simpa using hr⟩
      rw [← hk2]
      congr 2
      omega

/-- One element through `encrypt` and back through `decrypt`. -/
theorem encrypt_decrypt_elem {w k : Int} {size : Nat} (hn : size ≤ 2 ^ 62)
    (hw : 0 ≤ w ∧ w < size) (hk : 0 ≤ k ∧ k < size) :
    (0 ≤ ((toSizeT (w + k) % size : Nat) : Int) ∧
      ((toSizeT (w + k) % size : Nat) : Int) < size) ∧
    (((((toSizeT ((toSizeT (w + k) % size : Nat) : Int) + size) % 2 ^ 64 + 2 ^ 64
      - toSizeT k) % 2 ^ 64) % size : Nat) : Int) = w := by
  obtain ⟨a, rfl⟩ := Int.eq_ofNat_of_zero_le hw.1
  obtain ⟨b, rfl⟩ := Int.eq_ofNat_of_zero_le hk.1
  have ha : a < size := by omega
  have hb : b < size := by omega
  have hs : 0 < size := by omega
  have h1 : toSizeT ((a : Int) + (b : Int)) = a + b := by
    rw [← Nat.cast_add]
    exact toSizeT_natCast (by omega)
  have hx : (a + b) % size < size := Nat.mod_lt _ hs
  have h2 : toSizeT (((a + b) % size : Nat) : Int) = (a + b) % size :=
    toSizeT_natCast (by omega)
  have h3 : toSizeT (b : Int) = b := toSizeT_natCast (by omega)
  rw [h1, h2, h3]
  have h4 : (((a + b) % size + size) % 2 ^ 64 + 2 ^ 64 - b) % 2 ^ 64
      = (a + b) % size + size - b := by omega
  rw [h4, add_sub_mod_cancel ha (Nat.le_of_lt hb)]
  omega

/-- One element through `decrypt` and back through `encrypt`. -/
theorem decrypt_encrypt_elem {w k : Int} {size : Nat} (hn : size ≤ 2 ^ 62)
    (hw : 0 ≤ w ∧ w < size) (hk : 0 ≤ k ∧ k < size) :
    (0 ≤ (((((toSizeT w + size) % 2 ^ 64 + 2 ^ 64 - toSizeT k) % 2 ^ 64) % size : Nat) : Int) ∧
      (((((toSizeT w + size) % 2 ^ 64 + 2 ^ 64 - toSizeT k) % 2 ^ 64) % size : Nat) : Int)
        < size) ∧
    ((toSizeT ((((((toSizeT w + size) % 2 ^ 64 + 2 ^ 64 - toSizeT k) % 2 ^ 64) % size : Nat)
      : Int) + k) % size : Nat) : Int) = w := by
  obtain ⟨a, rfl⟩ := Int.eq_ofNat_of_zero_le hw.1
  obtain ⟨b, rfl⟩ := Int.eq_ofNat_of_zero_le hk.1
  have ha : a < size := by omega
  have hb : b < size := by omega
  have hs : 0 < size := by omega
  have h1 : toSizeT (a : Int) = a := toSizeT_natCast (by omega)
  have h3 : toSizeT (b : Int) = b := toSizeT_natCast (by omega)
  rw [h1, h3]
  have h4 : ((a + size) % 2 ^ 64 + 2 ^ 64 - b) % 2 ^ 64 = a + size - b := by omega
  rw [h4]
  have hx : (a + size - b) % size < size := Nat.mod_lt _ hs
  have h5 : toSizeT ((((a + size - b) % size : Nat) : Int) + (b : Int))
      = (a + size - b) % size + b := by
    rw [← Nat.cast_add]
    exact toSizeT_natCast (by omega)
  rw [h5, sub_add_mod_cancel ha (Nat.le_of_lt hb)]
  omega

/-- The loop of `decrypt` undoes the loop of `encrypt` when the shifts and the work
values are indices below `size`. -/
theorem decryptLoop_encryptLoop {key : List Int} {size : Nat} (hk : key ≠ [])
    (hn : size ≤ 2 ^ 62) (hkey : ∀ k ∈ key, 0 ≤ k ∧ k < (size : Int)) :
    ∀ (work : List Int) (i : Nat), (∀ w ∈ work, 0 ≤ w ∧ w < (size : Int)) →
      ∃ r, encryptLoop key size i work = .ok r ∧ (∀ w ∈ r, 0 ≤ w ∧ w < (size : Int)) ∧
        decryptLoop key size i r = .ok work := by
  have hlen : key.length ≠ 0 := fun h => hk (List.length_eq_zero.1 h)
  intro work
  induction work with
  | nil => exact fun _ _ => ⟨[], rfl, by simp, rfl⟩
  | cons w work ih =>
    intro i hwork
    have hw := hwork w (List.mem_cons_self _ _)
    have hs : size ≠ 0 := by omega
    obtain ⟨k, hkm, hki⟩ := key_access hk i
    obtain ⟨rest, h1, h2, h3⟩ := ih (i + 1) fun x hx => hwork x (List.mem_cons_of_mem _ hx)
    have helem := encrypt_decrypt_elem hn hw (hkey k hkm)
    refine ⟨((toSizeT (w + k) % size : Nat) : Int) :: rest,
      by simp only [encryptLoop, hlen, hs, hki, h1, if_false], ?_, ?_⟩
    · intro x hx
      rcases List.mem_cons.1 hx with rfl | hx
      · exact helem.1
      · exact h2 x hx
    · simp only [decryptLoop, hlen, hs, hki, h3, if_false]
      rw [helem.2]

/-- The loop of `encrypt` undoes the loop of `decrypt` under the same bounds. -/
theorem encryptLoop_decryptLoop {key : List Int} {size : Nat} (hk : key ≠ [])
    (hn : size ≤ 2 ^ 62) (hkey : ∀ k ∈ key, 0 ≤ k ∧ k < (size : Int)) :
    ∀ (work : List Int) (i : Nat), (∀ w ∈ work, 0 ≤ w ∧ w < (size : Int)) →
      ∃ r, decryptLoop key size i work = .ok r ∧ (∀ w ∈ r, 0 ≤ w ∧ w < (size : Int)) ∧
        encryptLoop key size i r = .ok work := by
  have hlen : key.length ≠ 0 := fun h => hk (List.length_eq_zero.1 h)
  intro work
  induction work with
  | nil => exact fun _ _ => ⟨[], rfl, by simp, rfl⟩
  | cons w work ih =>
    intro i hwork
    have hw := hwork w (List.mem_cons_self _ _)
    have hs : size ≠ 0 := by omega
    obtain ⟨k, hkm, hki⟩ := key_access hk i
    obtain ⟨rest, h1, h2, h3⟩ := ih (i + 1) fun x hx => hwork x (List.mem_cons_of_mem _ hx)
    have helem := decrypt_encrypt_elem hn hw (hkey k hkm)
    refine ⟨(((((toSizeT w + size) % 2 ^ 64 + 2 ^ 64 - toSizeT k) % 2 ^ 64) % size : Nat) : Int)
      :: rest, by simp only [decryptLoop, hlen, hs, hki, h1, if_false], ?_, ?_⟩
    · intro x hx
      rcases List.mem_cons.1 hx with rfl | hx
      · exact helem.1
      · exact h2 x hx
    · simp only [encryptLoop, hlen, hs, hki, h3, if_false]
      rw [helem.2]

/-- The overload `convert(const std::vector<int>&)` on indices that are all inside the
alphabet: it returns, keeps the length and reads `numAlpha[v]` at every place. -/
theorem convert_vector_spec {numAlpha : List Char} (hn : numAlpha.length ≤ 2 ^ 62) :
    ∀ (r : List Int), (∀ v ∈ r, 0 ≤ v ∧ v < (numAlpha.length : Int)) →
      ∃ ct, convert_vector numAlpha r = .ok ct ∧ ct.length = r.length ∧
        ∀ (j : Nat) (v : Int), r[j]? = some v →
          ct[j]? = numAlpha[v.toNat]? ∧ v.toNat < numAlpha.length := by
  intro r
  induction r with
  | nil => exact fun _ => ⟨[], rfl, rfl, by simp⟩
  | cons v r ih =>
    intro hr
    have hv := hr v (List.mem_cons_self _ _)
    obtain ⟨ct, h1, h2, h3⟩ := ih fun x hx => hr x (List.mem_cons_of_mem _ hx)
    have hb := toSizeT_of_bounds hv.1 hv.2 (by omega)
    have hidx : toSizeT v = v.toNat := by omega
    have hlt : ¬ toSizeT v ≥ numAlpha.length := by omega
    have hget : numAlpha[toSizeT v]? = some numAlpha[toSizeT v] :=
      List.getElem?_eq_getElem hb.1
    refine ⟨numAlpha[toSizeT v] :: ct,
      by simp only [convert_vector, hlt, hget, h1, if_false], by simp [h2], ?_⟩
    intro j x hj
    cases j with
    | zero =>
      simp only [List.getElem?_cons_zero, Option.some.injEq] at hj
      subst hj
      exact ⟨by simp [← hidx], by omega⟩
    | succ j =>
      simp only [List.getElem?_cons_succ] at hj
      simpa using h3 j x hj

set_option maxRecDepth 100000 in
/-- Every alphabet symbol stands at its own position. -/
theorem numAlpha_getElem_indexOf : ∀ c ∈ numAlphaInit,
    numAlphaInit.indexOf c < 33 ∧ numAlphaInit[numAlphaInit.indexOf c]? = some c := by
  decide

set_option maxRecDepth 100000 in
/-- Every position of the alphabet holds a symbol whose position it is. -/
theorem numAlpha_indexOf_getElem : ∀ n, n < 33 →
    ∃ c ∈ numAlphaInit, numAlphaInit[n]? = some c ∧ numAlphaInit.indexOf c = n := by
  decide

theorem numAlpha_index_bounds {s : List Char} (hs : ∀ c ∈ s, c ∈ numAlphaInit) :
    ∀ v ∈ s.map (fun c => ((numAlphaInit.indexOf c : Nat) : Int)),
      0 ≤ v ∧ v < ((33 : Nat) : Int) := by
  intro v hv
  obtain ⟨c, hc, rfl⟩ := List.mem_map.1 hv
  have := (numAlpha_getElem_indexOf c (hs c hc)).1
  omega

/-- On indices below 33 the overload `convert(const std::vector<int>&)` returns alphabet
symbols whose positions are the given indices. -/
theorem convert_vector_numAlpha :
    ∀ (r : List Int), (∀ v ∈ r, 0 ≤ v ∧ v < ((33 : Nat) : Int)) →
      ∃ ct, convert_vector numAlphaInit r = .ok ct ∧ (∀ c ∈ ct, c ∈ numAlphaInit) ∧
        ct.map (fun c => ((numAlphaInit.indexOf c : Nat) : Int)) = r := by
  intro r
  induction r with
  | nil => exact fun _ => ⟨[], rfl, by simp, rfl⟩
  | cons v r ih =>
    intro hr
    have hv := hr v (List.mem_cons_self _ _)
    obtain ⟨ct, h1, h2, h3⟩ := ih fun x hx => hr x (List.mem_cons_of_mem _ hx)
    obtain ⟨n, rfl⟩ := Int.eq_ofNat_of_zero_le hv.1
    have hn : n < 33 := by omega
    obtain ⟨c, hc, hget, hidx⟩ := numAlpha_indexOf_getElem n hn
    have hsz : toSizeT (n : Int) = n := toSizeT_natCast (by omega)
    have hlen : numAlphaInit.length = 33 := by decide
    have hlt : ¬ n ≥ numAlphaInit.length := by omega
    refine ⟨c :: ct, by simp only [convert_vector, hsz, hlt, hget, h1, if_false], ?_, ?_⟩
    · intro x hx
      rcases List.mem_cons.1 hx with rfl | hx
      · exact hc
      · exact h2 x hx
    · simp only [List.map_cons, hidx, h3]

/-- The overload `convert(const std::vector<int>&)` gives back a text of alphabet symbols
from the positions of its symbols. -/
theorem convert_vector_map_indexOf :
    ∀ (s : List Char), (∀ c ∈ s, c ∈ numAlphaInit) →
      convert_vector numAlphaInit (s.map fun c => ((numAlphaInit.indexOf c : Nat) : Int))
        = .ok s := by
  intro s
  induction s with
  | nil => exact fun _ => rfl
  | cons c s ih =>
    intro hs
    obtain ⟨hlt, hget⟩ := numAlpha_getElem_indexOf c (hs c (List.mem_cons_self _ _))
    have hsz : toSizeT ((numAlphaInit.indexOf c : Nat) : Int) = numAlphaInit.indexOf c :=
      toSizeT_natCast (by omega)
    have hlen : numAlphaInit.length = 33 := by decide
    have hge : ¬ numAlphaInit.indexOf c ≥ numAlphaInit.length := by omega
    simp only [List.map_cons, convert_vector, hsz, hge, hget,
      ih fun x hx => hs x (List.mem_cons_of_mem _ hx), if_false]

/-- On an object that holds the table built by the constructor, the overload
`convert(const std::wstring&)` returns the positions of the symbols when all of them are
alphabet symbols, throws otherwise, and leaves the object as it was. -/
theorem convert_wstring_built (G : modAlphaCipher)
    (hG : G.alphaNum = fillAlphaNum numAlphaInit 0 []) (s : List Char) :
    G.convert_wstring s =
      (if ∀ c ∈ s, c ∈ numAlphaInit then
          .ok (s.map fun c => ((numAlphaInit.indexOf c : Nat) : Int))
        else .error (.invalid_argument "Invalid character in text."), G) := by
  rw [convert_wstring_eq, hG]
  by_cases h : ∀ c ∈ s, c ∈ numAlphaInit
  · have h2 : ∀ c ∈ s, ((fillAlphaNum numAlphaInit 0 []).find c).isSome := by
      intro c hc
      rw [alphaNum_find_of_mem c (h c hc)]
      rfl
    rw [if_pos h, if_pos h2]
    congr 2
    apply List.map_congr_left
    intro c hc
    rw [alphaNum_find_of_mem c (h c hc)]
    rfl
  · have h2 : ¬ ∀ c ∈ s, ((fillAlphaNum numAlphaInit 0 []).find c).isSome := by
      intro hall
      apply h
      intro c hc
      by_contra hn
      have := hall c hc
      rw [alphaNum_find_of_not_mem hn] at this
      exact absurd this (by simp)
    rw [if_neg h, if_neg h2]

/-- What the constructor returns. -/
theorem new_eq (skey : List Char) :
    modAlphaCipher.new skey =
      if ∀ c ∈ skey, c ∈ numAlphaInit then
        .ok { numAlpha := numAlphaInit, alphaNum := fillAlphaNum numAlphaInit 0 [],
              key := skey.map fun c => ((numAlphaInit.indexOf c : Nat) : Int) }
      else .error (.invalid_argument "Invalid character in text.") := by
  unfold modAlphaCipher.new
  simp only []
  rw [convert_wstring_built _ rfl]
  by_cases h : ∀ c ∈ skey, c ∈ numAlphaInit
  · simp only [if_pos h]
  · simp only [if_neg h]

/-- The data members of a constructed object. -/
theorem new_ok {skey : List Char} {G : modAlphaCipher} (h : modAlphaCipher.new skey = .ok G) :
    (∀ c ∈ skey, c ∈ numAlphaInit) ∧ G.numAlpha = numAlphaInit ∧
      G.alphaNum = fillAlphaNum numAlphaInit 0 [] ∧
      G.key = skey.map fun c => ((numAlphaInit.indexOf c : Nat) : Int) := by
  rw [new_eq] at h
  by_cases hv : ∀ c ∈ skey, c ∈ numAlphaInit
  · rw [if_pos hv] at h
    simp only [Except.ok.injEq] at h
    subst h
    exact ⟨hv, rfl, rfl, rfl⟩
  · rw [if_neg hv] at h
    exact absurd h (by simp)

/-- The member `encrypt` of a constructed object, in terms of its loop. -/
theorem encrypt_built {skey : List Char} {G : modAlphaCipher}
    (hG : modAlphaCipher.new skey = .ok G) (text : List Char) :
    G.encrypt text =
      (if ∀ c ∈ text, c ∈ numAlphaInit then
          match encryptLoop G.key 33 0
            (text.map fun c => ((numAlphaInit.indexOf c : Nat) : Int)) with
          | .error e => .error e
          | .ok work => convert_vector numAlphaInit work
        else .error (.invalid_argument "Invalid character in text."), G) := by
  obtain ⟨_, hA, hM, _⟩ := new_ok hG
  have hlen : numAlphaInit.length = 33 := by decide
  unfold modAlphaCipher.encrypt
  rw [convert_wstring_built G hM]
  by_cases h : ∀ c ∈ text, c ∈ numAlphaInit
  · simp only [if_pos h, hA, hlen]
    cases encryptLoop G.key 33 0
      (text.map fun c => ((numAlphaInit.indexOf c : Nat) : Int)) <;> rfl
  · simp only [if_neg h]

/-- The member `decrypt` of a constructed object, in terms of its loop. -/
theorem decrypt_built {skey : List Char} {G : modAlphaCipher}
    (hG : modAlphaCipher.new skey = .ok G) (text : List Char) :
    G.decrypt text =
      (if ∀ c ∈ text, c ∈ numAlphaInit then
          match decryptLoop G.key 33 0
            (text.map fun c => ((numAlphaInit.indexOf c : Nat) : Int)) with
          | .error e => .error e
          | .ok work => convert_vector numAlphaInit work
        else .error (.invalid_argument "Invalid character in text."), G) := by
  obtain ⟨_, hA, hM, _⟩ := new_ok hG
  have hlen : numAlphaInit.length = 33 := by decide
  unfold modAlphaCipher.decrypt
  rw [convert_wstring_built G hM]
  by_cases h : ∀ c ∈ text, c ∈ numAlphaInit
  · simp only [if_pos h, hA, hlen]
    cases decryptLoop G.key 33 0
      (text.map fun c => ((numAlphaInit.indexOf c : Nat) : Int)) <;> rfl
  · simp only [if_neg h]

/-- The key of an object constructed from a non-empty descriptor is non-empty and holds
indices below 33. -/
theorem key_built {skey : List Char} {G : modAlphaCipher} (hne : skey ≠ [])
    (hG : modAlphaCipher.new skey = .ok G) :
    G.key ≠ [] ∧ ∀ k ∈ G.key, 0 ≤ k ∧ k < ((33 : Nat) : Int) := by
  obtain ⟨hv, _, _, hK⟩ := new_ok hG
  rw [hK]
  exact ⟨by simpa using hne, numAlpha_index_bounds hv⟩

/-- On a text of alphabet symbols `encrypt` of a constructed object with a non-empty key
returns a text of alphabet symbols, and the loop of `decrypt` leads back from it. -/
theorem encrypt_valid {skey : List Char} {G : modAlphaCipher} (hne : skey ≠ [])
    (hG : modAlphaCipher.new skey = .ok G) {text : List Char}
    (ht : ∀ c ∈ text, c ∈ numAlphaInit) :
    ∃ r ct, encryptLoop G.key 33 0
        (text.map fun c => ((numAlphaInit.indexOf c : Nat) : Int)) = .ok r ∧
      (∀ w ∈ r, 0 ≤ w ∧ w < ((33 : Nat) : Int)) ∧
      decryptLoop G.key 33 0 r
        = .ok (text.map fun c => ((numAlphaInit.indexOf c : Nat) : Int)) ∧
      convert_vector numAlphaInit r = .ok ct ∧ (∀ c ∈ ct, c ∈ numAlphaInit) ∧
      ct.map (fun c => ((numAlphaInit.indexOf c : Nat) : Int)) = r ∧
      G.encrypt text = (.ok ct, G) := by
  obtain ⟨hk1, hk2⟩ := key_built hne hG
  obtain ⟨r, h1, h2, h3⟩ :=
    decryptLoop_encryptLoop hk1 (by norm_num) hk2 _ 0 (numAlpha_index_bounds ht)
  obtain ⟨ct, h4, h5, h6⟩ := convert_vector_numAlpha r h2
  refine ⟨r, ct, h1, h2, h3, h4, h5, h6, ?_⟩
  rw [encrypt_built hG, if_pos ht, h1]
  simp only [h4]

/-- The same for `decrypt`. -/
theorem decrypt_valid {skey : List Char} {G : modAlphaCipher} (hne : skey ≠ [])
    (hG : modAlphaCipher.new skey = .ok G) {text : List Char}
    (ht : ∀ c ∈ text, c ∈ numAlphaInit) :
    ∃ r ct, decryptLoop G.key 33 0
        (text.map fun c => ((numAlphaInit.indexOf c : Nat) : Int)) = .ok r ∧
      (∀ w ∈ r, 0 ≤ w ∧ w < ((33 : Nat) : Int)) ∧
      encryptLoop G.key 33 0 r
        = .ok (text.map fun c => ((numAlphaInit.indexOf c : Nat) : Int)) ∧
      convert_vector numAlphaInit r = .ok ct ∧ (∀ c ∈ ct, c ∈ numAlphaInit) ∧
      ct.map (fun c => ((numAlphaInit.indexOf c : Nat) : Int)) = r ∧
      G.decrypt text = (.ok ct, G) := by
  obtain ⟨hk1, hk2⟩ := key_built hne hG
  obtain ⟨r, h1, h2, h3⟩ :=
    encryptLoop_decryptLoop hk1 (by norm_num) hk2 _ 0 (numAlpha_index_bounds ht)
  obtain ⟨ct, h4, h5, h6⟩ := convert_vector_numAlpha r h2
  refine ⟨r, ct, h1, h2, h3, h4, h5, h6, ?_⟩
  rw [decrypt_built hG, if_pos ht, h1]
  simp only [h4]

set_option maxRecDepth 100000 in
/-- No symbol of the Gronsfeld alphabet is a decimal digit. -/
theorem numAlpha_not_digit : ∀ c ∈ numAlphaInit, c.isDigit = false := by
  decide

/-! ## Lemmas on `modPermutationCipher` -/

theorem validateKeyLoop_ok {s : List Char} (h : validateKeyLoop s = .ok ()) :
    ∀ ch ∈ s, iswdigit ch = true := by
  induction s with
  | nil => simp
  | cons c s ih =>
    simp only [validateKeyLoop] at h
    split at h
    · exact absurd h (by simp)
    · rename_i hc
      intro ch hch
      rcases List.mem_cons.1 hch with rfl | hch
      · simpa using hc
      · exact ih h ch hch

theorem validateKeyLoop_of_digits {s : List Char} (h : ∀ ch ∈ s, iswdigit ch = true) :
    validateKeyLoop s = .ok () := by
  induction s with
  | nil => rfl
  | cons c s ih =>
    have hc := h c (List.mem_cons_self _ _)
    simp only [validateKeyLoop, hc, Bool.not_true, Bool.false_eq_true, if_false]
    exact ih fun x hx => h x (List.mem_cons_of_mem _ hx)

theorem validateKey_ok {s : List Char} (h : validateKey s = .ok ()) :
    ∀ ch ∈ s, iswdigit ch = true := by
  unfold validateKey at h
  split at h
  · exact absurd h (by simp)
  · rename_i hl
    exact validateKeyLoop_ok hl

/-- The data members of a constructed object, and what its key descriptor was. -/
theorem perm_new_ok {skey : List Char} {P : modPermutationCipher}
    (h : modPermutationCipher.new skey = .ok P) :
    skey ≠ [] ∧ (∀ ch ∈ skey, iswdigit ch = true) ∧ P.alphabet = alphabetInit ∧
      P.key = skey.map (fun ch => (ch.toNat : Int) - 48) := by
  unfold modPermutationCipher.new at h
  split at h
  · exact absurd h (by simp)
  · rename_i hne
    split at h
    · exact absurd h (by simp)
    · rename_i hv
      simp only [Except.ok.injEq] at h
      subst h
      exact ⟨by simpa using hne, validateKey_ok hv, rfl, rfl⟩

/-- The key of a constructed object is non-empty and holds shifts from 0 to 9. -/
theorem perm_key_built {skey : List Char} {P : modPermutationCipher}
    (h : modPermutationCipher.new skey = .ok P) :
    P.key ≠ [] ∧ ∀ k ∈ P.key, 0 ≤ k ∧ k ≤ 9 := by
  obtain ⟨hne, hd, _, hK⟩ := perm_new_ok h
  rw [hK]
  refine ⟨by simpa using hne, ?_⟩
  intro k hk
  obtain ⟨ch, hch, rfl⟩ := List.mem_map.1 hk
  have := hd ch hch
  simp only [iswdigit, decide_eq_true_eq] at this
  omega

theorem wstring_find_some {s : List Char} {c : Char} {i : Nat}
    (h : wstring_find s c = some i) : s[i]? = some c := by
  induction s generalizing i with
  | nil => simp [wstring_find] at h
  | cons a s ih =>
    simp only [wstring_find] at h
    split at h
    · rename_i hac
      simp only [Option.some.injEq] at h
      subst h
      simp [hac]
    · cases hf : wstring_find s c with
      | none => simp [hf] at h
      | some j =>
        simp only [hf, Option.map_some', Option.some.injEq] at h
        subst h
        simpa using ih hf

theorem wstring_find_isSome_iff {s : List Char} {c : Char} :
    (wstring_find s c).isSome ↔ c ∈ s := by
  induction s with
  | nil => simp [wstring_find]
  | cons a s ih =>
    simp only [wstring_find, List.mem_cons]
    split
    · rename_i hac
      simp [hac]
    · rename_i hac
      rw [Option.isSome_map', ih]
      constructor
      · exact Or.inr
      · rintro (rfl | h)
        · exact absurd rfl hac
        · exact h

set_option maxRecDepth 100000 in
/-- Every position of the combined alphabet holds a symbol whose first occurrence is at
that position. -/
theorem alphabet_find_getElem : ∀ n, n < 59 →
    ∃ c ∈ alphabetInit, alphabetInit[n]? = some c ∧ wstring_find alphabetInit c = some n := by
  decide

/-- The loop of `validateText` returns exactly on the texts whose characters are all in
the alphabet, and throws the one message otherwise. -/
theorem validateTextLoop_eq (alphabet text : List Char) :
    validateTextLoop alphabet text =
      if ∀ c ∈ text, c ∈ alphabet then .ok ()
      else .error (.invalid_argument
        "Ошибка: текст должен содержать только буквы из заданного алфавита (русские и английские буквы).") := by
  induction text with
  | nil => simp [validateTextLoop]
  | cons c text ih =>
    cases hf : wstring_find alphabet c with
    | none =>
      have hc : c ∉ alphabet := by
        rw [← wstring_find_isSome_iff, hf]
        simp
      have : ¬ ∀ d ∈ c :: text, d ∈ alphabet := fun h => hc (h c (List.mem_cons_self _ _))
      simp only [validateTextLoop, hf, if_neg this]
    | some j =>
      have hc : c ∈ alphabet := by
        rw [← wstring_find_isSome_iff, hf]
        rfl
      simp only [validateTextLoop, hf, ih]
      by_cases hall : ∀ d ∈ text, d ∈ alphabet
      · have : ∀ d ∈ c :: text, d ∈ alphabet := by
          intro d hd
          rcases List.mem_cons.1 hd with rfl | hd
          · exact hc
          · exact hall d hd
        rw [if_pos hall, if_pos this]
      · have : ¬ ∀ d ∈ c :: text, d ∈ alphabet :=
          fun h => hall fun d hd => h d (List.mem_cons_of_mem _ hd)
        rw [if_neg hall, if_neg this]

theorem wstring_find_of_mem {s : List Char} {c : Char} (h : c ∈ s) :
    ∃ index, wstring_find s c = some index ∧ index < s.length ∧ s[index]? = some c := by
  cases hf : wstring_find s c with
  | none =>
    have := wstring_find_isSome_iff.2 h
    rw [hf] at this
    exact absurd this (by simp)
  | some index =>
    have hget := wstring_find_some hf
    exact ⟨index, rfl, (List.getElem?_eq_some.1 hget).1, hget⟩

/-- With a non-empty key, on a text of alphabet symbols the loop of
`modPermutationCipher::encrypt` runs to its end, drops no symbol, and appends
`alphabet[(index + shift) % alphabet.size()]` for the symbol at each place. -/
theorem permEncryptLoop_spec {alphabet : List Char} {key : List Int} (hk : key ≠ []) :
    ∀ (text : List Char) (i : Nat), (∀ c ∈ text, c ∈ alphabet) →
      ∃ ct, permEncryptLoop alphabet key i text = .ok ct ∧ ct.length = text.length ∧
        ∀ (j : Nat) (c : Char), text[j]? = some c → ∃ index shift,
          wstring_find alphabet c = some index ∧ key[(i + j) % key.length]? = some shift ∧
          ct[j]? = alphabet[(index + toSizeT shift) % 2 ^ 64 % alphabet.length]? := by
  have hlen : key.length ≠ 0 := fun h => hk (List.length_eq_zero.1 h)
  intro text
  induction text with
  | nil => exact fun _ _ => ⟨[], rfl, rfl, by simp⟩
  | cons c text ih =>
    intro i ht
    obtain ⟨index, hf, hlt, _⟩ := wstring_find_of_mem (ht c (List.mem_cons_self _ _))
    have ha : alphabet.length ≠ 0 := by omega
    obtain ⟨k, _, hki⟩ := key_access hk i
    obtain ⟨rest, h1, h2, h3⟩ := ih (i + 1) fun x hx => ht x (List.mem_cons_of_mem _ hx)
    have hpos : (index + toSizeT k) % 2 ^ 64 % alphabet.length < alphabet.length :=
      Nat.mod_lt _ (Nat.pos_of_ne_zero ha)
    have hget := List.getElem?_eq_getElem hpos
    refine ⟨alphabet[(index + toSizeT k) % 2 ^ 64 % alphabet.length] :: rest,
      by simp only [permEncryptLoop, hf, hlen, ha, hki, hget, h1, if_false], by simp [h2], ?_⟩
    intro j x hj
    cases j with
    | zero =>
      simp only [List.getElem?_cons_zero, Option.some.injEq] at hj
      subst hj
      exact ⟨index, k, hf, by simpa using hki, by simp [hget]⟩
    | succ j =>
      simp only [List.getElem?_cons_succ] at hj
      obtain ⟨index2, k2, hf2, hk2, hr⟩ := h3 j x hj
      refine ⟨index2, k2, hf2, ?_, by simpa using hr⟩
      rw [← hk2]
      congr 2
      omega

/-- The same for the loop of `modPermutationCipher::decrypt`, with
`alphabet[(index - shift + alphabet.size()) % alphabet.size()]` in `size_t` arithmetic. -/
theorem permDecryptLoop_spec {alphabet : List Char} {key : List Int} (hk : key ≠ []) :
    ∀ (text : List Char) (i : Nat), (∀ c ∈ text, c ∈ alphabet) →
      ∃ ct, permDecryptLoop alphabet key i text = .ok ct ∧ ct.length = text.length ∧
        ∀ (j : Nat) (c : Char), text[j]? = some c → ∃ index shift,
          wstring_find alphabet c = some index ∧ key[(i + j) % key.length]? = some shift ∧
          ct[j]? = alphabet[((index + 2 ^ 64 - toSizeT shift) % 2 ^ 64 + alphabet.length)
            % 2 ^ 64 % alphabet.length]? := by
  have hlen : key.length ≠ 0 := fun h => hk (List.length_eq_zero.1 h)
  intro text
  induction text with
  | nil => exact fun _ _ => ⟨[], rfl, rfl, by simp⟩
  | cons c text ih =>
    intro i ht
    obtain ⟨index, hf, hlt, _⟩ := wstring_find_of_mem (ht c (List.mem_cons_self _ _))
    have ha : alphabet.length ≠ 0 := by omega
    obtain ⟨k, _, hki⟩ := key_access hk i
    obtain ⟨rest, h1, h2, h3⟩ := ih (i + 1) fun x hx => ht x (List.mem_cons_of_mem _ hx)
    have hpos : ((index + 2 ^ 64 - toSizeT k) % 2 ^ 64 + alphabet.length) % 2 ^ 64
        % alphabet.length < alphabet.length :=
      Nat.mod_lt _ (Nat.pos_of_ne_zero ha)
    have hget := List.getElem?_eq_getElem hpos
    refine ⟨alphabet[((index + 2 ^ 64 - toSizeT k) % 2 ^ 64 + alphabet.length) % 2 ^ 64
        % alphabet.length] :: rest,
      by simp only [permDecryptLoop, hf, hlen, ha, hki, hget, h1, if_false], by simp [h2], ?_⟩
    intro j x hj
    cases j with
    | zero =>
      simp only [List.getElem?_cons_zero, Option.some.injEq] at hj
      subst hj
      exact ⟨index, k, hf, by simpa using hki, by simp [hget]⟩
    | succ j =>
      simp only [List.getElem?_cons_succ] at hj
      obtain ⟨index2, k2, hf2, hk2, hr⟩ := h3 j x hj
      refine ⟨index2, k2, hf2, ?_, by simpa using hr⟩
      rw [← hk2]
      congr 2
      omega

/-- One index through the arithmetic of `modPermutationCipher::encrypt` and back through
that of `decrypt`, the wrap of the unsigned difference included. -/
theorem perm_encrypt_decrypt_elem {index N : Nat} {shift : Int} (hN : N ≤ 2 ^ 62)
    (hi : index < N) (hs : 0 ≤ shift ∧ shift ≤ (N : Int)) :
    (index + toSizeT shift) % 2 ^ 64 % N = (index + shift.toNat) % N ∧
    (((index + toSizeT shift) % 2 ^ 64 % N + 2 ^ 64 - toSizeT shift) % 2 ^ 64 + N)
      % 2 ^ 64 % N = index := by
  obtain ⟨b, rfl⟩ := Int.eq_ofNat_of_zero_le hs.1
  have hb : b ≤ N := by omega
  have h1 : toSizeT (b : Int) = b := toSizeT_natCast (by omega)
  have h2 : (index + b) % 2 ^ 64 = index + b := Nat.mod_eq_of_lt (by omega)
  have hx : (index + b) % N < N := Nat.mod_lt _ (by omega)
  have h3 : (((index + b) % N + 2 ^ 64 - b) % 2 ^ 64 + N) % 2 ^ 64
      = (index + b) % N + N - b := by omega
  rw [h1, h2, h3]
  exact ⟨by simp, add_sub_mod_cancel hi hb⟩

/-- One index through the arithmetic of `modPermutationCipher::decrypt` and back through
that of `encrypt`. -/
theorem perm_decrypt_encrypt_elem {index N : Nat} {shift : Int} (hN : N ≤ 2 ^ 62)
    (hi : index < N) (hs : 0 ≤ shift ∧ shift ≤ (N : Int)) :
    ((index + 2 ^ 64 - toSizeT shift) % 2 ^ 64 + N) % 2 ^ 64 % N
      = (index + N - shift.toNat) % N ∧
    (((index + 2 ^ 64 - toSizeT shift) % 2 ^ 64 + N) % 2 ^ 64 % N + toSizeT shift)
      % 2 ^ 64 % N = index := by
  obtain ⟨b, rfl⟩ := Int.eq_ofNat_of_zero_le hs.1
  have hb : b ≤ N := by omega
  have h1 : toSizeT (b : Int) = b := toSizeT_natCast (by omega)
  have h2 : ((index + 2 ^ 64 - b) % 2 ^ 64 + N) % 2 ^ 64 = index + N - b := by omega
  have hx : (index + N - b) % N < N := Nat.mod_lt _ (by omega)
  have h3 : ((index + N - b) % N + b) % 2 ^ 64 = (index + N - b) % N + b :=
    Nat.mod_eq_of_lt (by omega)
  rw [h1, h2, h3]
  exact ⟨by simp, sub_add_mod_cancel hi hb⟩

/-- The loop of `modPermutationCipher::decrypt` undoes the loop of `encrypt` when no
symbol occurs twice in the alphabet and no shift exceeds its length. -/
theorem permDecryptLoop_permEncryptLoop {alphabet : List Char} {key : List Int}
    (hk : key ≠ []) (hN : alphabet.length ≤ 2 ^ 62)
    (hkey : ∀ k ∈ key, 0 ≤ k ∧ k ≤ (alphabet.length : Int))
    (hfind : ∀ n, n < alphabet.length →
      ∃ c ∈ alphabet, alphabet[n]? = some c ∧ wstring_find alphabet c = some n) :
    ∀ (text : List Char) (i : Nat), (∀ c ∈ text, c ∈ alphabet) →
      ∃ ct, permEncryptLoop alphabet key i text = .ok ct ∧ ct.length = text.length ∧
        (∀ c ∈ ct, c ∈ alphabet) ∧ permDecryptLoop alphabet key i ct = .ok text := by
  have hlen : key.length ≠ 0 := fun h => hk (List.length_eq_zero.1 h)
  intro text
  induction text with
  | nil => exact fun _ _ => ⟨[], rfl, rfl, by simp, rfl⟩
  | cons c text ih =>
    intro i ht
    obtain ⟨index, hf, hlt, hc⟩ := wstring_find_of_mem (ht c (List.mem_cons_self _ _))
    have ha : alphabet.length ≠ 0 := by omega
    obtain ⟨k, hkm, hki⟩ := key_access hk i
    obtain ⟨rest, h1, h2, h3, h4⟩ :=
      ih (i + 1) fun x hx => ht x (List.mem_cons_of_mem _ hx)
    have hpos : (index + toSizeT k) % 2 ^ 64 % alphabet.length < alphabet.length :=
      Nat.mod_lt _ (Nat.pos_of_ne_zero ha)
    obtain ⟨c2, hc2, hget, hf2⟩ := hfind _ hpos
    have helem := (perm_encrypt_decrypt_elem hN hlt (hkey k hkm)).2
    refine ⟨c2 :: rest,
      by simp only [permEncryptLoop, hf, hlen, ha, hki, hget, h1, if_false],
      by simp [h2], ?_, ?_⟩
    · intro x hx
      rcases List.mem_cons.1 hx with rfl | hx
      · exact hc2
      · exact h3 x hx
    · simp only [permDecryptLoop, hf2, hlen, ha, hki, helem, hc, h4, if_false]

/-- The loop of `modPermutationCipher::encrypt` undoes the loop of `decrypt` under the
same conditions. -/
theorem permEncryptLoop_permDecryptLoop {alphabet : List Char} {key : List Int}
    (hk : key ≠ []) (hN : alphabet.length ≤ 2 ^ 62)
    (hkey : ∀ k ∈ key, 0 ≤ k ∧ k ≤ (alphabet.length : Int))
    (hfind : ∀ n, n < alphabet.length →
      ∃ c ∈ alphabet, alphabet[n]? = some c ∧ wstring_find alphabet c = some n) :
    ∀ (text : List Char) (i : Nat), (∀ c ∈ text, c ∈ alphabet) →
      ∃ ct, permDecryptLoop alphabet key i text = .ok ct ∧ ct.length = text.length ∧
        (∀ c ∈ ct, c ∈ alphabet) ∧ permEncryptLoop alphabet key i ct = .ok text := by
  have hlen : key.length ≠ 0 := fun h => hk (List.length_eq_zero.1 h)
  intro text
  induction text with
  | nil => exact fun _ _ => ⟨[], rfl, rfl, by simp, rfl⟩
  | cons c text ih =>
    intro i ht
    obtain ⟨index, hf, hlt, hc⟩ := wstring_find_of_mem (ht c (List.mem_cons_self _ _))
    have ha : alphabet.length ≠ 0 := by omega
    obtain ⟨k, hkm, hki⟩ := key_access hk i
    obtain ⟨rest, h1, h2, h3, h4⟩ :=
      ih (i + 1) fun x hx => ht x (List.mem_cons_of_mem _ hx)
    have hpos : ((index + 2 ^ 64 - toSizeT k) % 2 ^ 64 + alphabet.length) % 2 ^ 64
        % alphabet.length < alphabet.length :=
      Nat.mod_lt _ (Nat.pos_of_ne_zero ha)
    obtain ⟨c2, hc2, hget, hf2⟩ := hfind _ hpos
    have helem := (perm_decrypt_encrypt_elem hN hlt (hkey k hkm)).2
    refine ⟨c2 :: rest,
      by simp only [permDecryptLoop, hf, hlen, ha, hki, hget, h1, if_false],
      by simp [h2], ?_, ?_⟩
    · intro x hx
      rcases List.mem_cons.1 hx with rfl | hx
      · exact hc2
      · exact h3 x hx
    · simp only [permEncryptLoop, hf2, hlen, ha, hki, helem, hc, h4, if_false]

/-- The member `validateText` by cases. -/
theorem validateText_eq (P : modPermutationCipher) (text : List Char) :
    P.validateText text =
      if text = [] then
        .error (.invalid_argument
          "Ошибка: текст не может быть пустым. Пожалуйста, введите текст для шифрования/расшифрования.")
      else if ∀ c ∈ text, c ∈ P.alphabet then .ok ()
      else .error (.invalid_argument
        "Ошибка: текст должен содержать только буквы из заданного алфавита (русские и английские буквы).") := by
  unfold modPermutationCipher.validateText
  rw [validateTextLoop_eq]
  cases text with
  | nil => rfl
  | cons c text => simp only [List.isEmpty_cons, Bool.false_eq_true, if_false, reduceCtorEq]

/-- On a non-empty text of alphabet symbols `encrypt` of a constructed object returns a
text of the same length, again of alphabet symbols, and `decrypt` returns the text
from it. -/
theorem perm_encrypt_valid {skey : List Char} {P : modPermutationCipher}
    (hP : modPermutationCipher.new skey = .ok P) {text : List Char} (hne : text ≠ [])
    (ht : ∀ c ∈ text, c ∈ alphabetInit) :
    ∃ ct, P.encrypt text = .ok ct ∧ ct.length = text.length ∧
      (∀ c ∈ ct, c ∈ alphabetInit) ∧ P.decrypt ct = .ok text := by
  obtain ⟨_, _, hA, _⟩ := perm_new_ok hP
  obtain ⟨hk1, hk2⟩ := perm_key_built hP
  have hlen : alphabetInit.length = 59 := by decide
  obtain ⟨ct, h1, h2, h3, h4⟩ := permDecryptLoop_permEncryptLoop hk1
    (by rw [hlen]; norm_num)
    (fun k hk => by have := hk2 k hk; rw [hlen]; omega)
    (by rw [hlen]; exact alphabet_find_getElem) text 0 ht
  have hct : ct ≠ [] := by
    intro h
    rw [h] at h2
    exact hne (List.length_eq_zero.1 h2.symm)
  refine ⟨ct, ?_, h2, h3, ?_⟩
  · unfold modPermutationCipher.encrypt
    rw [validateText_eq, if_neg hne, hA, if_pos ht]
    exact h1
  · unfold modPermutationCipher.decrypt
    rw [validateText_eq, if_neg hct, hA, if_pos h3]
    exact h4

/-- The same for `decrypt`, with `encrypt` leading back. -/
theorem perm_decrypt_valid {skey : List Char} {P : modPermutationCipher}
    (hP : modPermutationCipher.new skey = .ok P) {text : List Char} (hne : text ≠ [])
    (ht : ∀ c ∈ text, c ∈ alphabetInit) :
    ∃ ct, P.decrypt text = .ok ct ∧ ct.length = text.length ∧
      (∀ c ∈ ct, c ∈ alphabetInit) ∧ P.encrypt ct = .ok text := by
  obtain ⟨_, _, hA, _⟩ := perm_new_ok hP
  obtain ⟨hk1, hk2⟩ := perm_key_built hP
  have hlen : alphabetInit.length = 59 := by decide
  obtain ⟨ct, h1, h2, h3, h4⟩ := permEncryptLoop_permDecryptLoop hk1
    (by rw [hlen]; norm_num)
    (fun k hk => by have := hk2 k hk; rw [hlen]; omega)
    (by rw [hlen]; exact alphabet_find_getElem) text 0 ht
  have hct : ct ≠ [] := by
    intro h
    rw [h] at h2
    exact hne (List.length_eq_zero.1 h2.symm)
  refine ⟨ct, ?_, h2, h3, ?_⟩
  · unfold modPermutationCipher.decrypt
    rw [validateText_eq, if_neg hne, hA, if_pos ht]
    exact h1
  · unfold modPermutationCipher.encrypt
    rw [validateText_eq, if_neg hct, hA, if_pos h3]
    exact h4

theorem validateText_ok_iff (P : modPermutationCipher) (text : List Char) :
    P.validateText text = .ok () ↔ text ≠ [] ∧ ∀ c ∈ text, c ∈ P.alphabet := by
  rw [validateText_eq]
  by_cases h1 : text = []
  · simp [h1]
  · by_cases h2 : ∀ c ∈ text, c ∈ P.alphabet
    · simp [h1, h2]
    · simp only [if_neg h1, if_neg h2]
      constructor
      · intro h
        exact absurd h (by simp)
      · intro h
        exact absurd h.2 h2

/-- The loop of `validateKey` returns exactly on the strings of digits. -/
theorem validateKeyLoop_eq (s : List Char) :
    validateKeyLoop s =
      if ∀ ch ∈ s, iswdigit ch = true then .ok ()
      else .error (.invalid_argument
        "Ошибка: ключ должен состоять только из цифр. Пожалуйста, введите положительное целое число.") := by
  induction s with
  | nil => simp [validateKeyLoop]
  | cons c s ih =>
    by_cases hc : iswdigit c = true
    · simp only [validateKeyLoop, hc, Bool.not_true, Bool.false_eq_true, if_false, ih]
      by_cases hall : ∀ ch ∈ s, iswdigit ch = true
      · have : ∀ ch ∈ c :: s, iswdigit ch = true := by
          intro d hd
          rcases List.mem_cons.1 hd with rfl | hd
          · exact hc
          · exact hall d hd
        rw [if_pos hall, if_pos this]
      · have : ¬ ∀ ch ∈ c :: s, iswdigit ch = true :=
          fun h => hall fun d hd => h d (List.mem_cons_of_mem _ hd)
        rw [if_neg hall, if_neg this]
    · have : ¬ ∀ ch ∈ c :: s, iswdigit ch = true := fun h => hc (h c (List.mem_cons_self _ _))
      simp only [Bool.not_eq_true] at hc
      simp only [validateKeyLoop, hc, Bool.not_false, if_true, if_neg this]

/-- What the constructor of `modPermutationCipher` returns, by cases on the key
descriptor. The case of a value above `INT_MAX` is the exception `std::stoi` throws. -/
theorem perm_new_eq (skey : List Char) :
    modPermutationCipher.new skey =
      if skey = [] then
        .error (.invalid_argument
          "Ошибка: ключ не может быть пустым. Пожалуйста, введите положительное целое число.")
      else if ∀ ch ∈ skey, iswdigit ch = true then
        if decimalValue skey > 2147483647 then .error (.out_of_range "stoi")
        else if decimalValue skey = 0 then
          .error (.invalid_argument
            "Ошибка: ключ должен быть положительным целым числом. Пожалуйста, введите корректный ключ.")
        else
          .ok { alphabet := alphabetInit, key := skey.map (fun ch => (ch.toNat : Int) - 48) }
      else
        .error (.invalid_argument
          "Ошибка: ключ должен состоять только из цифр. Пожалуйста, введите положительное целое число.") := by
  by_cases h1 : skey = []
  · subst h1
    rfl
  · have hemp : skey.isEmpty = false := by
      cases skey with
      | nil => exact absurd rfl h1
      | cons _ _ => rfl
    unfold modPermutationCipher.new validateKey
    rw [validateKeyLoop_eq]
    simp only [hemp, Bool.false_eq_true, if_false, if_neg h1]
    by_cases h2 : ∀ ch ∈ skey, iswdigit ch = true
    · have htake : skey.takeWhile iswdigit = skey := List.takeWhile_eq_self_iff.2 h2
      simp only [if_pos h2, stoi, htake, hemp, Bool.false_eq_true, if_false]
      by_cases h3 : decimalValue skey > 2147483647
      · simp only [if_pos h3]
      · simp only [if_neg h3]
        by_cases h4 : decimalValue skey = 0
        · simp [h4]
        · have : ¬ ((decimalValue skey : Nat) : Int) ≤ 0 := by omega
          simp only [if_neg this, if_neg h4]
    · simp only [if_neg h2]

set_option maxRecDepth 100000 in
/-- No symbol of the combined alphabet is an uppercase ASCII letter. -/
theorem alphabet_not_upper : ∀ c ∈ alphabetInit, c.isUpper = false := by
  decide

set_option maxRecDepth 100000 in
/-- The 26 code points from 97 on are symbols of the combined alphabet. -/
theorem alphabet_lower : ∀ n, n < 26 → Char.ofNat (97 + n) ∈ alphabetInit := by
  decide

/-- Every lowercase ASCII letter is a symbol of the combined alphabet. -/
theorem mem_alphabet_of_isLower {c : Char} (h : c.isLower = true) : c ∈ alphabetInit := by
  have h1 : 97 ≤ c.toNat ∧ c.toNat ≤ 122 := by
    simp only [Char.isLower, Bool.and_eq_true, decide_eq_true_eq] at h
    exact ⟨h.1, h.2⟩
  have h2 := alphabet_lower (c.toNat - 97) (by omega)
  have h3 : 97 + (c.toNat - 97) = c.toNat := by omega
  rw [h3, Char.ofNat_toNat] at h2
  exact h2

/-! ## Lengths of results and thrown exceptions -/

/-- Whenever `encrypt` of an object constructed from a non-empty key returns, the text
consists of alphabet symbols and the result has its length. -/
theorem encrypt_ok_length {skey : List Char} {G : modAlphaCipher} (hne : skey ≠ [])
    (hG : modAlphaCipher.new skey = .ok G) {text ct : List Char}
    (h : (G.encrypt text).1 = .ok ct) :
    (∀ c ∈ text, c ∈ numAlphaInit) ∧ ct.length = text.length := by
  by_cases ht : ∀ c ∈ text, c ∈ numAlphaInit
  · obtain ⟨r, ct2, h1, _, _, _, _, h6, h7⟩ := encrypt_valid hne hG ht
    obtain ⟨r2, e1, e2, _⟩ := encryptLoop_spec (key_built hne hG).1
      (by decide : (33 : Nat) ≠ 0)
      (text.map fun c => ((numAlphaInit.indexOf c : Nat) : Int)) 0
    rw [h1] at e1
    simp only [Except.ok.injEq] at e1
    subst e1
    rw [h7] at h
    simp only [Except.ok.injEq] at h
    subst h
    have := congrArg List.length h6
    rw [List.length_map, e2, List.length_map] at this
    exact ⟨ht, this⟩
  · rw [encrypt_built hG, if_neg ht] at h
    exact absurd h (by simp)

/-- The same for `decrypt`. -/
theorem decrypt_ok_length {skey : List Char} {G : modAlphaCipher} (hne : skey ≠ [])
    (hG : modAlphaCipher.new skey = .ok G) {text ct : List Char}
    (h : (G.decrypt text).1 = .ok ct) :
    (∀ c ∈ text, c ∈ numAlphaInit) ∧ ct.length = text.length := by
  by_cases ht : ∀ c ∈ text, c ∈ numAlphaInit
  · obtain ⟨r, ct2, h1, _, _, _, _, h6, h7⟩ := decrypt_valid hne hG ht
    obtain ⟨r2, e1, e2, _⟩ := decryptLoop_spec (key_built hne hG).1
      (by decide : (33 : Nat) ≠ 0)
      (text.map fun c => ((numAlphaInit.indexOf c : Nat) : Int)) 0
    rw [h1] at e1
    simp only [Except.ok.injEq] at e1
    subst e1
    rw [h7] at h
    simp only [Except.ok.injEq] at h
    subst h
    have := congrArg List.length h6
    rw [List.length_map, e2, List.length_map] at this
    exact ⟨ht, this⟩
  · rw [decrypt_built hG, if_neg ht] at h
    exact absurd h (by simp)

/-- Whenever `encrypt` of a constructed `modPermutationCipher` returns, `validateText`
had accepted the text and the result has its length. -/
theorem perm_encrypt_ok_length {skey : List Char} {P : modPermutationCipher}
    (hP : modPermutationCipher.new skey = .ok P) {text ct : List Char}
    (h : P.encrypt text = .ok ct) :
    P.validateText text = .ok () ∧ ct.length = text.length := by
  obtain ⟨_, _, hA, _⟩ := perm_new_ok hP
  cases hv : P.validateText text with
  | error e =>
    unfold modPermutationCipher.encrypt at h
    rw [hv] at h
    exact absurd h (by simp)
  | ok u =>
    obtain ⟨hne, ht⟩ := (validateText_ok_iff P text).1 hv
    rw [hA] at ht
    obtain ⟨ct2, h1, h2, _, _⟩ := perm_encrypt_valid hP hne ht
    rw [h1] at h
    simp only [Except.ok.injEq] at h
    subst h
    exact ⟨rfl, h2⟩

/-- The same for `decrypt`. -/
theorem perm_decrypt_ok_length {skey : List Char} {P : modPermutationCipher}
    (hP : modPermutationCipher.new skey = .ok P) {text ct : List Char}
    (h : P.decrypt text = .ok ct) :
    P.validateText text = .ok () ∧ ct.length = text.length := by
  obtain ⟨_, _, hA, _⟩ := perm_new_ok hP
  cases hv : P.validateText text with
  | error e =>
    unfold modPermutationCipher.decrypt at h
    rw [hv] at h
    exact absurd h (by simp)
  | ok u =>
    obtain ⟨hne, ht⟩ := (validateText_ok_iff P text).1 hv
    rw [hA] at ht
    obtain ⟨ct2, h1, h2, _, _⟩ := perm_decrypt_valid hP hne ht
    rw [h1] at h
    simp only [Except.ok.injEq] at h
    subst h
    exact ⟨rfl, h2⟩

/-- A call of `encrypt` or `decrypt` of `modPermutationCipher` throws exactly what
`validateText` throws on its text. -/
theorem perm_error_iff {skey : List Char} {P : modPermutationCipher}
    (hP : modPermutationCipher.new skey = .ok P) (text : List Char) (e : Exn) :
    (P.encrypt text = .error e ↔ P.validateText text = .error e) ∧
    (P.decrypt text = .error e ↔ P.validateText text = .error e) := by
  obtain ⟨_, _, hA, _⟩ := perm_new_ok hP
  cases hv : P.validateText text with
  | error e2 =>
    simp only [modPermutationCipher.encrypt, modPermutationCipher.decrypt, hv, and_self,
      Except.error.injEq]
  | ok u =>
    obtain ⟨hne, ht⟩ := (validateText_ok_iff P text).1 hv
    rw [hA] at ht
    obtain ⟨ct1, h1, _⟩ := perm_encrypt_valid hP hne ht
    obtain ⟨ct2, h2, _⟩ := perm_decrypt_valid hP hne ht
    rw [h1, h2]
    simp

/-! ## The alphabets -/

set_option maxRecDepth 100000 in
/-- No symbol occurs twice in the Gronsfeld alphabet. -/
theorem numAlpha_nodup : numAlphaInit.Nodup := by
  decide

set_option maxRecDepth 100000 in
/-- No symbol occurs twice in the combined alphabet. -/
theorem alphabet_nodup : alphabetInit.Nodup := by
  decide

/-- Every position of the Gronsfeld alphabet holds a symbol that the table built by the
constructor sends to that position. -/
theorem alphaNum_find_getElem {n : Nat} (hn : n < 33) :
    ∃ c, numAlphaInit[n]? = some c ∧
      (fillAlphaNum numAlphaInit 0 []).find c = some (n : Int) := by
  obtain ⟨c, hc, hget, hidx⟩ := numAlpha_indexOf_getElem n hn
  refine ⟨c, hget, ?_⟩
  rw [alphaNum_find_of_mem c hc, hidx]

/-! ## The object after a call -/

/-- The member `encrypt` leaves every object as it was, whatever the outcome. -/
theorem encrypt_snd (self : modAlphaCipher) (text : List Char) :
    (self.encrypt text).2 = self := by
  unfold modAlphaCipher.encrypt
  rw [convert_wstring_eq]
  by_cases h : ∀ c ∈ text, (self.alphaNum.find c).isSome
  · simp only [if_pos h]
    cases encryptLoop self.key self.numAlpha.length 0
      (text.map fun c => (self.alphaNum.find c).getD 0) <;> rfl
  · simp only [if_neg h]

/-- The member `decrypt` leaves every object as it was, whatever the outcome. -/
theorem decrypt_snd (self : modAlphaCipher) (text : List Char) :
    (self.decrypt text).2 = self := by
  unfold modAlphaCipher.decrypt
  rw [convert_wstring_eq]
  by_cases h : ∀ c ∈ text, (self.alphaNum.find c).isSome
  · simp only [if_pos h]
    cases decryptLoop self.key self.numAlpha.length 0
      (text.map fun c => (self.alphaNum.find c).getD 0) <;> rfl
  · simp only [if_neg h]

/-! ## Both round trips of `modAlphaCipher` -/

/-- Forward round trip on a constructed object, with length and alphabet of the
ciphertext. -/
theorem encrypt_then_decrypt {skey : List Char} {G : modAlphaCipher} (hne : skey ≠ [])
    (hG : modAlphaCipher.new skey = .ok G) {text : List Char}
    (ht : ∀ c ∈ text, c ∈ numAlphaInit) :
    ∃ ct, (G.encrypt text).1 = .ok ct ∧ ct.length = text.length ∧
      (∀ c ∈ ct, c ∈ numAlphaInit) ∧ ((G.encrypt text).2.decrypt ct).1 = .ok text := by
  obtain ⟨r, ct, _, _, h3, _, h5, h6, h7⟩ := encrypt_valid hne hG ht
  have h1 : (G.encrypt text).1 = .ok ct := by rw [h7]
  refine ⟨ct, h1, (encrypt_ok_length hne hG h1).2, h5, ?_⟩
  rw [encrypt_snd, decrypt_built hG, if_pos h5, h6, h3]
  exact convert_vector_map_indexOf text ht

/-- Reverse round trip on a constructed object, with length and alphabet of the
plaintext. -/
theorem decrypt_then_encrypt {skey : List Char} {G : modAlphaCipher} (hne : skey ≠ [])
    (hG : modAlphaCipher.new skey = .ok G) {text : List Char}
    (ht : ∀ c ∈ text, c ∈ numAlphaInit) :
    ∃ pt, (G.decrypt text).1 = .ok pt ∧ pt.length = text.length ∧
      (∀ c ∈ pt, c ∈ numAlphaInit) ∧ ((G.decrypt text).2.encrypt pt).1 = .ok text := by
  obtain ⟨r, pt, _, _, h3, _, h5, h6, h7⟩ := decrypt_valid hne hG ht
  have h1 : (G.decrypt text).1 = .ok pt := by rw [h7]
  refine ⟨pt, h1, (decrypt_ok_length hne hG h1).2, h5, ?_⟩
  rw [decrypt_snd, encrypt_built hG, if_pos h5, h6, h3]
  exact convert_vector_map_indexOf text ht

/-! ## Repeated keys -/

theorem length_flatten_replicate {α : Type} (K : List α) (n : Nat) :
    (List.replicate n K).flatten.length = n * K.length := by
  induction n with
  | zero => simp
  | succ n ih =>
    rw [List.replicate_succ, List.flatten_cons, List.length_append, ih]
    rw [Nat.succ_mul]
    omega

/-- A list repeated `n` times holds at each place `j` what the list holds at
`j % length`. -/
theorem getElem?_flatten_replicate {α : Type} (K : List α) (n j : Nat)
    (hj : j < n * K.length) :
    (List.replicate n K).flatten[j]? = K[j % K.length]? := by
  induction n generalizing j with
  | zero => omega
  | succ n ih =>
    rw [List.replicate_succ, List.flatten_cons]
    by_cases h : j < K.length
    · rw [List.getElem?_append_left h, Nat.mod_eq_of_lt h]
    · have hge : K.length ≤ j := Nat.le_of_not_lt h
      rw [List.getElem?_append_right hge, ih (j - K.length) (by rw [Nat.succ_mul] at hj; omega),
        ← Nat.mod_eq_sub_mod hge]

/-- The access `key[i % key.size()]` reads the same shift from a key and from the key
repeated. -/
theorem key_access_repeated (K : List Int) (n i : Nat) (hK : K ≠ []) (hn : 1 ≤ n) :
    (List.replicate n K).flatten[i % (List.replicate n K).flatten.length]?
      = K[i % K.length]? := by
  have hlen : 0 < K.length := List.length_pos.2 hK
  have hpos : 0 < n * K.length := Nat.mul_pos hn hlen
  rw [length_flatten_replicate,
    getElem?_flatten_replicate K n _ (Nat.mod_lt _ hpos), Nat.mod_mul_left_mod]

/-- The loop of `encrypt` only reads the key through `key[i % key.size()]`. -/
theorem encryptLoop_congr {key1 key2 : List Int} (size : Nat) (h1 : key1 ≠ [])
    (h2 : key2 ≠ []) (h : ∀ i, key1[i % key1.length]? = key2[i % key2.length]?) :
    ∀ (work : List Int) (i : Nat),
      encryptLoop key1 size i work = encryptLoop key2 size i work := by
  have hl1 : key1.length ≠ 0 := fun e => h1 (List.length_eq_zero.1 e)
  have hl2 : key2.length ≠ 0 := fun e => h2 (List.length_eq_zero.1 e)
  intro work
  induction work with
  | nil => exact fun _ => rfl
  | cons w work ih =>
    intro i
    simp only [encryptLoop, hl1, hl2, if_false, h i, ih (i + 1)]

/-- The loop of `decrypt` only reads the key through `key[i % key.size()]`. -/
theorem decryptLoop_congr {key1 key2 : List Int} (size : Nat) (h1 : key1 ≠ [])
    (h2 : key2 ≠ []) (h : ∀ i, key1[i % key1.length]? = key2[i % key2.length]?) :
    ∀ (work : List Int) (i : Nat),
      decryptLoop key1 size i work = decryptLoop key2 size i work := by
  have hl1 : key1.length ≠ 0 := fun e => h1 (List.length_eq_zero.1 e)
  have hl2 : key2.length ≠ 0 := fun e => h2 (List.length_eq_zero.1 e)
  intro work
  induction work with
  | nil => exact fun _ => rfl
  | cons w work ih =>
    intro i
    simp only [decryptLoop, hl1, hl2, if_false, h i, ih (i + 1)]

/-! ## The unsigned difference in `modPermutationCipher::decrypt` -/

/-- For an alphabet of at least 9 symbols and a shift of at most 9, the unsigned value of
`(index - shift + N) % N` is the integer `(index - shift + N) mod N`. -/
theorem perm_decrypt_index_exact {index N b : Nat} (h9 : 9 ≤ N) (hN : N ≤ 2 ^ 62)
    (hi : index < N) (hb : b ≤ 9) :
    ((((index + 2 ^ 64 - b) % 2 ^ 64 + N) % 2 ^ 64 % N : Nat) : Int)
      = ((index : Int) - (b : Int) + (N : Int)) % (N : Int) := by
  have h : ((index + 2 ^ 64 - b) % 2 ^ 64 + N) % 2 ^ 64 = index + N - b := by omega
  have hc : ((index + N - b : Nat) : Int) = (index : Int) - (b : Int) + (N : Int) := by omega
  rw [h, Int.ofNat_emod, hc]

/-- When the index is smaller than the shift the unsigned difference wraps. -/
theorem perm_decrypt_wrap {index b : Nat} (hi : index < b) (hb : b ≤ 9) :
    (index + 2 ^ 64 - b) % 2 ^ 64 = 2 ^ 64 - (b - index) := by
  omega

/-! ## Claims -/

/-- C1. Round trip of the Gronsfeld cipher: for a non-empty key descriptor of alphabet
symbols and any text of alphabet symbols (the empty one included) of fewer than `2 ^ 32`
symbols, the range of the loop counter `unsigned i`, the constructor returns an object,
`encrypt` returns a ciphertext, and `decrypt`, called on the object as `encrypt` left
it, returns the text. -/
theorem gronsfeld_round_trip (skey text : List Char) (hne : skey ≠ [])
    (hkey : ∀ c ∈ skey, c ∈ numAlphaInit) (htext : ∀ c ∈ text, c ∈ numAlphaInit)
    (_ : text.length < 2 ^ 32) :
    ∃ G ct, modAlphaCipher.new skey = .ok G ∧ (G.encrypt text).1 = .ok ct ∧
      ((G.encrypt text).2.decrypt ct).1 = .ok text := by
  have hG : modAlphaCipher.new skey = .ok
      { numAlpha := numAlphaInit, alphaNum := fillAlphaNum numAlphaInit 0 [],
        key := skey.map fun c => ((numAlphaInit.indexOf c : Nat) : Int) } := by
    rw [new_eq, if_pos hkey]
  obtain ⟨r, ct, _, _, h3, _, h5, h6, h7⟩ := encrypt_valid hne hG htext
  refine ⟨_, ct, hG, by rw [h7], ?_⟩
  rw [h7, decrypt_built hG, if_pos h5, h6, h3]
  exact convert_vector_map_indexOf text htext

/-- C1 at key "БВ" and text "ЯЁА". -/
theorem gronsfeld_round_trip_witness :
    "БВ".toList ≠ [] ∧ (∀ c ∈ "БВ".toList, c ∈ numAlphaInit) ∧
    (∀ c ∈ "ЯЁА".toList, c ∈ numAlphaInit) ∧ "ЯЁА".toList.length < 2 ^ 32 ∧
    ∃ G ct, modAlphaCipher.new "БВ".toList = .ok G ∧
      (G.encrypt "ЯЁА".toList).1 = .ok ct ∧
      ((G.encrypt "ЯЁА".toList).2.decrypt ct).1 = .ok "ЯЁА".toList :=
  ⟨by decide, by decide, by decide, by decide,
    gronsfeld_round_trip "БВ".toList "ЯЁА".toList (by decide) (by decide) (by decide)
      (by decide)⟩

/-- C2. Round trip of the permutation cipher: for an object the constructor returned and
a non-empty text of symbols of the combined alphabet, `encrypt` returns a ciphertext and
`decrypt` returns the text from it. -/
theorem permutation_round_trip (skey text : List Char) (P : modPermutationCipher)
    (hP : modPermutationCipher.new skey = .ok P) (hne : text ≠ [])
    (htext : ∀ c ∈ text, c ∈ alphabetInit) :
    ∃ ct, P.encrypt text = .ok ct ∧ P.decrypt ct = .ok text := by
  obtain ⟨ct, h1, _, _, h4⟩ := perm_encrypt_valid hP hne htext
  exact ⟨ct, h1, h4⟩

/-- C2 at key "19" and text "zАbЯ". -/
theorem permutation_round_trip_witness :
    modPermutationCipher.new "19".toList = .ok ⟨alphabetInit, [1, 9]⟩ ∧
    "zАbЯ".toList ≠ [] ∧ (∀ c ∈ "zАbЯ".toList, c ∈ alphabetInit) ∧
    ∃ ct, (modPermutationCipher.mk alphabetInit [1, 9]).encrypt "zАbЯ".toList = .ok ct ∧
      (modPermutationCipher.mk alphabetInit [1, 9]).decrypt ct = .ok "zАbЯ".toList :=
  ⟨by rfl, by decide, by decide,
    permutation_round_trip "19".toList "zАbЯ".toList ⟨alphabetInit, [1, 9]⟩ (by rfl)
      (by decide) (by decide)⟩

/-- C3 as stated fails: with key "Б" (shift 1) the text "Я" (index 32) is encrypted to
"А", the symbol at index `(32 + 1) % 33 = 0`, whereas the symbol at index
`(32 + 1) % 32 = 1` is "Б". -/
theorem gronsfeld_encrypt_mod32_counterexample :
    ∃ G ct, modAlphaCipher.new "Б".toList = .ok G ∧ G.key[0 % G.key.length]? = some 1 ∧
      numAlphaInit.indexOf 'Я' = 32 ∧ (G.encrypt "Я".toList).1 = .ok ct ∧
      ct[0]? = some 'А' ∧ numAlphaInit[(32 + 1) % 32]? = some 'Б' ∧
      ct[0]? ≠ numAlphaInit[(32 + 1) % 32]? :=
  ⟨⟨numAlphaInit, fillAlphaNum numAlphaInit 0 [], [1]⟩, "А".toList,
    by rfl, by rfl, by decide, by rfl, by rfl, by rfl, by decide⟩

/-- C3, amended. For a non-empty key of alphabet symbols and a text of alphabet symbols
of fewer than `2 ^ 32` symbols (the range of the loop counter `unsigned i`), `encrypt`
returns a text of the same length whose symbol at each position `i` is the alphabet
symbol at index `(p + k) % 33`, where `p` is the alphabet index of the `i`-th input
symbol, `k = key[i % key.size()]`, and 33 is the length of the alphabet. -/
theorem gronsfeld_encrypt_formula (skey text : List Char) (hne : skey ≠ [])
    (hkey : ∀ c ∈ skey, c ∈ numAlphaInit) (htext : ∀ c ∈ text, c ∈ numAlphaInit)
    (_ : text.length < 2 ^ 32) :
    numAlphaInit.length = 33 ∧
    ∃ G ct, modAlphaCipher.new skey = .ok G ∧ (G.encrypt text).1 = .ok ct ∧
      ct.length = text.length ∧
      ∀ (i : Nat) (c : Char), text[i]? = some c → ∃ (k : Nat) (sym : Char),
        G.key[i % G.key.length]? = some (k : Int) ∧ ct[i]? = some sym ∧
        numAlphaInit[(numAlphaInit.indexOf c + k) % 33]? = some sym := by
  refine ⟨by decide, ?_⟩
  have hG : modAlphaCipher.new skey = .ok
      { numAlpha := numAlphaInit, alphaNum := fillAlphaNum numAlphaInit 0 [],
        key := skey.map fun c => ((numAlphaInit.indexOf c : Nat) : Int) } := by
    rw [new_eq, if_pos hkey]
  obtain ⟨hk1, hk2⟩ := key_built hne hG
  obtain ⟨r, ct, h1, h2, _, h4, _, _, h7⟩ := encrypt_valid hne hG htext
  obtain ⟨r2, e1, e2, e3⟩ := encryptLoop_spec hk1 (by decide : (33 : Nat) ≠ 0)
    (text.map fun c => ((numAlphaInit.indexOf c : Nat) : Int)) 0
  rw [h1] at e1
  simp only [Except.ok.injEq] at e1
  subst e1
  have hlen : numAlphaInit.length = 33 := by decide
  obtain ⟨ct2, v1, v2, v3⟩ := convert_vector_spec (by rw [hlen]; norm_num) r
    (by rw [hlen]; exact h2)
  rw [h4] at v1
  simp only [Except.ok.injEq] at v1
  subst v1
  refine ⟨_, ct, hG, by rw [h7], by rw [v2, e2, List.length_map], ?_⟩
  intro i c hc
  have hw : (text.map fun c => ((numAlphaInit.indexOf c : Nat) : Int))[i]?
      = some ((numAlphaInit.indexOf c : Nat) : Int) := by
    rw [List.getElem?_map, hc]
    rfl
  obtain ⟨k, hk, hr⟩ := e3 i _ hw
  rw [Nat.zero_add] at hk
  have hkb := hk2 k (List.getElem?_mem hk)
  obtain ⟨kn, rfl⟩ := Int.eq_ofNat_of_zero_le hkb.1
  have hp := (numAlpha_getElem_indexOf c (htext c (List.getElem?_mem hc))).1
  have hsz : toSizeT (((numAlphaInit.indexOf c : Nat) : Int) + (kn : Int))
      = numAlphaInit.indexOf c + kn := by
    rw [← Nat.cast_add]
    exact toSizeT_natCast (by omega)
  rw [hsz] at hr
  obtain ⟨hv, _⟩ := v3 i _ hr
  rw [Int.toNat_ofNat] at hv
  obtain ⟨sym, _, hsym, _⟩ :=
    numAlpha_indexOf_getElem ((numAlphaInit.indexOf c + kn) % 33) (Nat.mod_lt _ (by decide))
  exact ⟨kn, sym, hk, by rw [hv, hsym], hsym⟩

/-- C3, amended, at key "Б" and text "Я". -/
theorem gronsfeld_encrypt_formula_witness :
    "Б".toList ≠ [] ∧ (∀ c ∈ "Б".toList, c ∈ numAlphaInit) ∧
    (∀ c ∈ "Я".toList, c ∈ numAlphaInit) ∧ "Я".toList.length < 2 ^ 32 ∧
    numAlphaInit.length = 33 ∧
    ∃ G ct, modAlphaCipher.new "Б".toList = .ok G ∧ (G.encrypt "Я".toList).1 = .ok ct ∧
      ct.length = "Я".toList.length ∧
      ∀ (i : Nat) (c : Char), "Я".toList[i]? = some c → ∃ (k : Nat) (sym : Char),
        G.key[i % G.key.length]? = some (k : Int) ∧ ct[i]? = some sym ∧
        numAlphaInit[(numAlphaInit.indexOf c + k) % 33]? = some sym :=
  ⟨by decide, by decide, by decide, by decide,
    gronsfeld_encrypt_formula "Б".toList "Я".toList (by decide) (by decide) (by decide)
      (by decide)⟩

/-- C4 as stated fails: with key "1" the text "z" (index 58) is encrypted to "А", the
symbol at index `(58 + 1) % 59 = 0`, whereas the symbol at index `(58 + 1) % 58 = 1`
is "Б". -/
theorem permutation_encrypt_mod58_counterexample :
    ∃ P ct, modPermutationCipher.new "1".toList = .ok P ∧
      P.validateText "z".toList = .ok () ∧ P.key[0 % P.key.length]? = some 1 ∧
      wstring_find P.alphabet 'z' = some 58 ∧ P.encrypt "z".toList = .ok ct ∧
      ct[0]? = some 'А' ∧ P.alphabet[(58 + 1) % 58]? = some 'Б' ∧
      ct[0]? ≠ P.alphabet[(58 + 1) % 58]? :=
  ⟨⟨alphabetInit, [1]⟩, "А".toList,
    by rfl, by rfl, by rfl, by rfl, by rfl, by rfl, by rfl, by decide⟩

/-- C4, amended. For an object the constructor returned and a text `validateText`
accepts, `encrypt` returns a text of the same length whose symbol at each position `i`
is the alphabet symbol at index `(index + shift) % 59`, where `index` is the position
of the `i`-th input symbol in the combined alphabet, `shift = key[i % key.size()]`, and
59 is the length of the combined alphabet. -/
theorem permutation_encrypt_formula (skey text : List Char) (P : modPermutationCipher)
    (hP : modPermutationCipher.new skey = .ok P) (hv : P.validateText text = .ok ()) :
    P.alphabet.length = 59 ∧
    ∃ ct, P.encrypt text = .ok ct ∧ ct.length = text.length ∧
      ∀ (i : Nat) (c : Char), text[i]? = some c → ∃ (index shift : Nat) (sym : Char),
        wstring_find P.alphabet c = some index ∧
        P.key[i % P.key.length]? = some (shift : Int) ∧ ct[i]? = some sym ∧
        P.alphabet[(index + shift) % 59]? = some sym := by
  obtain ⟨_, _, hA, _⟩ := perm_new_ok hP
  obtain ⟨hk1, hk2⟩ := perm_key_built hP
  have hlen : alphabetInit.length = 59 := by decide
  obtain ⟨_, ht⟩ := (validateText_ok_iff P text).1 hv
  obtain ⟨ct, h1, h2, h3⟩ := permEncryptLoop_spec hk1 text 0 ht
  refine ⟨by rw [hA, hlen], ct, ?_, h2, ?_⟩
  · unfold modPermutationCipher.encrypt
    rw [hv]
    exact h1
  · intro i c hc
    obtain ⟨index, shift, hf, hk, hr⟩ := h3 i c hc
    rw [Nat.zero_add] at hk
    have hkb := hk2 shift (List.getElem?_mem hk)
    obtain ⟨b, rfl⟩ := Int.eq_ofNat_of_zero_le hkb.1
    have hidx : index < 59 := by
      have := (List.getElem?_eq_some.1 (wstring_find_some hf)).1
      rw [hA, hlen] at this
      exact this
    have he := (@perm_encrypt_decrypt_elem index 59 (b : Int) (by norm_num) hidx
      (by omega)).1
    rw [hA, hlen, he, Int.toNat_ofNat] at hr
    obtain ⟨sym, _, hsym, _⟩ :=
      alphabet_find_getElem ((index + b) % 59) (Nat.mod_lt _ (by decide))
    rw [hA]
    exact ⟨index, b, sym, by rw [← hA]; exact hf, hk, by rw [hr, hsym], hsym⟩

/-- C4, amended, at key "1" and text "z". -/
theorem permutation_encrypt_formula_witness :
    modPermutationCipher.new "1".toList = .ok ⟨alphabetInit, [1]⟩ ∧
    (modPermutationCipher.mk alphabetInit [1]).validateText "z".toList = .ok () ∧
    (modPermutationCipher.mk alphabetInit [1]).alphabet.length = 59 ∧
    ∃ ct, (modPermutationCipher.mk alphabetInit [1]).encrypt "z".toList = .ok ct ∧
      ct.length = "z".toList.length ∧
      ∀ (i : Nat) (c : Char), "z".toList[i]? = some c → ∃ (index shift : Nat) (sym : Char),
        wstring_find (modPermutationCipher.mk alphabetInit [1]).alphabet c = some index ∧
        (modPermutationCipher.mk alphabetInit [1]).key[
          i % (modPermutationCipher.mk alphabetInit [1]).key.length]? = some (shift : Int) ∧
        ct[i]? = some sym ∧
        (modPermutationCipher.mk alphabetInit [1]).alphabet[(index + shift) % 59]? = some sym :=
  ⟨by rfl, by rfl,
    permutation_encrypt_formula "1".toList "z".toList ⟨alphabetInit, [1]⟩ (by rfl) (by rfl)⟩

/-- C5 at a key descriptor of ten digits: "2147483648" is non-empty, consists of decimal
digits and has a positive value, yet the constructor does not return an object with the
shifts 2,1,4,7,4,8,3,6,4,8 and does not throw `std::invalid_argument` either: `std::stoi`
inside `validateKey` throws `std::out_of_range`. -/
theorem permutation_construction_long_key :
    "2147483648".toList ≠ [] ∧ (∀ ch ∈ "2147483648".toList, iswdigit ch = true) ∧
      0 < decimalValue "2147483648".toList ∧
      modPermutationCipher.new "2147483648".toList = .error (.out_of_range "stoi") ∧
      (∃ P, modPermutationCipher.new "2147483647".toList = .ok P ∧
        P.key = [2, 1, 4, 7, 4, 8, 3, 6, 4, 7]) := by
  refine ⟨by decide, by decide, by decide, by rfl, ⟨_, by rfl, by rfl⟩⟩

/-- C6. The constructor of the Gronsfeld cipher throws `std::invalid_argument` if and only
if some character of the key descriptor is not in the alphabet, and returns an object
otherwise; the key of the object is the list of the alphabet indices of the descriptor's
characters. A key with a decimal digit in it is rejected ("1Б" is), and "БВ" gives the
shifts 1, 2. -/
theorem gronsfeld_construction (skey : List Char) :
    ((∃ what, modAlphaCipher.new skey = .error (.invalid_argument what)) ↔
      ∃ c ∈ skey, c ∉ numAlphaInit) ∧
    ((∃ G, modAlphaCipher.new skey = .ok G) ↔ ∀ c ∈ skey, c ∈ numAlphaInit) ∧
    (∀ G, modAlphaCipher.new skey = .ok G →
      G.key = skey.map fun c => ((numAlphaInit.indexOf c : Nat) : Int)) ∧
    ((∃ c ∈ skey, c.isDigit = true) →
      ∃ what, modAlphaCipher.new skey = .error (.invalid_argument what)) ∧
    (∃ what, modAlphaCipher.new "1Б".toList = .error (.invalid_argument what)) ∧
    (∃ G, modAlphaCipher.new "БВ".toList = .ok G ∧ G.key = [1, 2]) := by
  refine ⟨?_, ?_, fun G hG => (new_ok hG).2.2.2, ?_, ⟨_, by rfl⟩, ⟨_, by rfl, by rfl⟩⟩
  rotate_left 2
  · rintro ⟨c, hc, hd⟩
    have hn : ¬ ∀ c ∈ skey, c ∈ numAlphaInit := by
      intro hall
      rw [numAlpha_not_digit c (hall c hc)] at hd
      exact absurd hd (by simp)
    rw [new_eq, if_neg hn]
    exact ⟨_, rfl⟩
  · rw [new_eq]
    by_cases h : ∀ c ∈ skey, c ∈ numAlphaInit
    · rw [if_pos h]
      constructor
      · rintro ⟨_, hw⟩
        exact absurd hw (by simp)
      · rintro ⟨c, hc, hn⟩
        exact absurd (h c hc) hn
    · rw [if_neg h]
      constructor
      · intro _
        by_contra hcon
        apply h
        intro c hc
        by_contra hn
        exact hcon ⟨c, hc, hn⟩
      · intro _
        exact ⟨_, rfl⟩
  · rw [new_eq]
    by_cases h : ∀ c ∈ skey, c ∈ numAlphaInit
    · rw [if_pos h]
      exact ⟨fun _ => h, fun _ => ⟨_, rfl⟩⟩
    · rw [if_neg h]
      constructor
      · rintro ⟨_, hw⟩
        exact absurd hw (by simp)
      · intro hall
        exact absurd hall h

/-- C7. For a constructed permutation cipher, `validateText` throws
`std::invalid_argument` if and only if the text is empty or has a character outside the
combined alphabet, and returns otherwise. A text with an uppercase ASCII letter is
rejected ("ABC" is), a non-empty text of lowercase ASCII letters is accepted ("abc" is).
`encrypt` and `decrypt` throw exactly when `validateText` does, and the same exception. -/
theorem permutation_validateText (skey text : List Char) (P : modPermutationCipher)
    (hP : modPermutationCipher.new skey = .ok P) :
    ((∃ what, P.validateText text = .error (.invalid_argument what)) ↔
      (text = [] ∨ ∃ c ∈ text, c ∉ alphabetInit)) ∧
    (P.validateText text = .ok () ↔ (text ≠ [] ∧ ∀ c ∈ text, c ∈ alphabetInit)) ∧
    ((∃ c ∈ text, c.isUpper = true) →
      ∃ what, P.validateText text = .error (.invalid_argument what)) ∧
    (text ≠ [] → (∀ c ∈ text, c.isLower = true) → P.validateText text = .ok ()) ∧
    (∃ what, P.validateText "ABC".toList = .error (.invalid_argument what)) ∧
    P.validateText "abc".toList = .ok () ∧
    (∀ e, P.encrypt text = .error e ↔ P.validateText text = .error e) ∧
    (∀ e, P.decrypt text = .error e ↔ P.validateText text = .error e) := by
  obtain ⟨_, _, hA, _⟩ := perm_new_ok hP
  have hok : ∀ t : List Char,
      P.validateText t = .ok () ↔ (t ≠ [] ∧ ∀ c ∈ t, c ∈ alphabetInit) := by
    intro t
    rw [validateText_ok_iff, hA]
  have herr : ∀ t : List Char, (∃ what, P.validateText t = .error (.invalid_argument what)) ↔
      (t = [] ∨ ∃ c ∈ t, c ∉ alphabetInit) := by
    intro t
    rw [validateText_eq, hA]
    by_cases h1 : t = []
    · rw [if_pos h1]
      exact ⟨fun _ => Or.inl h1, fun _ => ⟨_, rfl⟩⟩
    · rw [if_neg h1]
      by_cases h2 : ∀ c ∈ t, c ∈ alphabetInit
      · rw [if_pos h2]
        constructor
        · rintro ⟨_, hw⟩
          exact absurd hw (by simp)
        · rintro (h | ⟨c, hc, hn⟩)
          · exact absurd h h1
          · exact absurd (h2 c hc) hn
      · rw [if_neg h2]
        constructor
        · intro _
          right
          by_contra hcon
          apply h2
          intro c hc
          by_contra hn
          exact hcon ⟨c, hc, hn⟩
        · intro _
          exact ⟨_, rfl⟩
  have hupper : ∀ t : List Char, (∃ c ∈ t, c.isUpper = true) →
      ∃ what, P.validateText t = .error (.invalid_argument what) := by
    rintro t ⟨c, hc, hu⟩
    refine (herr t).2 (Or.inr ⟨c, hc, fun hmem => ?_⟩)
    rw [alphabet_not_upper c hmem] at hu
    exact absurd hu (by simp)
  have hlower : ∀ t : List Char, t ≠ [] → (∀ c ∈ t, c.isLower = true) →
      P.validateText t = .ok () :=
    fun t hne hl => (hok t).2 ⟨hne, fun c hc => mem_alphabet_of_isLower (hl c hc)⟩
  exact ⟨herr text, hok text, hupper text, hlower text,
    hupper _ ⟨'A', by decide, by decide⟩, hlower _ (by decide) (by decide),
    fun e => (perm_error_iff hP text e).1, fun e => (perm_error_iff hP text e).2⟩

/-- C7 at key "12" and text "aBc". -/
theorem permutation_validateText_witness :
    modPermutationCipher.new "12".toList = .ok ⟨alphabetInit, [1, 2]⟩ ∧
    (∃ what, (modPermutationCipher.mk alphabetInit [1, 2]).validateText "aBc".toList
      = .error (.invalid_argument what)) ∧
    (∃ what, (modPermutationCipher.mk alphabetInit [1, 2]).encrypt "aBc".toList
      = .error (.invalid_argument what)) :=
  have h := permutation_validateText "12".toList "aBc".toList ⟨alphabetInit, [1, 2]⟩ (by rfl)
  have hv := h.2.2.1 ⟨'B', by decide, by decide⟩
  ⟨by rfl, hv, hv.elim fun what hw => ⟨what, (h.2.2.2.2.2.2.1 _).2 hw⟩⟩

/-- C8. For a Gronsfeld cipher constructed from a non-empty key, `encrypt` and `decrypt`
throw `std::invalid_argument` if and only if the text has a character outside the
alphabet; they return a text only if it has none (so a call that throws returns
nothing), and they do return one if it has none and the text has fewer than `2 ^ 32`
symbols, the range of the loop counter `unsigned i`; the empty text is returned as the
empty text. -/
theorem gronsfeld_text_errors (skey text : List Char) (G : modAlphaCipher)
    (hne : skey ≠ []) (hG : modAlphaCipher.new skey = .ok G) :
    ((∃ what, (G.encrypt text).1 = .error (.invalid_argument what)) ↔
      ∃ c ∈ text, c ∉ numAlphaInit) ∧
    (((∃ ct, (G.encrypt text).1 = .ok ct) → ∀ c ∈ text, c ∈ numAlphaInit) ∧
      (text.length < 2 ^ 32 → (∀ c ∈ text, c ∈ numAlphaInit) →
        ∃ ct, (G.encrypt text).1 = .ok ct)) ∧
    ((∃ what, (G.decrypt text).1 = .error (.invalid_argument what)) ↔
      ∃ c ∈ text, c ∉ numAlphaInit) ∧
    (((∃ ct, (G.decrypt text).1 = .ok ct) → ∀ c ∈ text, c ∈ numAlphaInit) ∧
      (text.length < 2 ^ 32 → (∀ c ∈ text, c ∈ numAlphaInit) →
        ∃ ct, (G.decrypt text).1 = .ok ct)) ∧
    (G.encrypt []).1 = .ok [] ∧ (G.decrypt []).1 = .ok [] := by
  have hnot : (¬ ∀ c ∈ text, c ∈ numAlphaInit) → ∃ c ∈ text, c ∉ numAlphaInit := by
    intro h
    by_contra hcon
    apply h
    intro c hc
    by_contra hn
    exact hcon ⟨c, hc, hn⟩
  refine ⟨?_, ?_, ?_, ?_, ?_, ?_⟩
  · by_cases h : ∀ c ∈ text, c ∈ numAlphaInit
    · obtain ⟨_, ct, _, _, _, _, _, _, h7⟩ := encrypt_valid hne hG h
      rw [h7]
      constructor
      · rintro ⟨_, hw⟩
        exact absurd hw (by simp)
      · rintro ⟨c, hc, hn⟩
        exact absurd (h c hc) hn
    · rw [encrypt_built hG, if_neg h]
      exact ⟨fun _ => hnot h, fun _ => ⟨_, rfl⟩⟩
  · constructor
    · rintro ⟨ct, hct⟩
      exact (encrypt_ok_length hne hG hct).1
    · intro _ h
      obtain ⟨_, ct, _, _, _, _, _, _, h7⟩ := encrypt_valid hne hG h
      exact ⟨ct, by rw [h7]⟩
  · by_cases h : ∀ c ∈ text, c ∈ numAlphaInit
    · obtain ⟨_, ct, _, _, _, _, _, _, h7⟩ := decrypt_valid hne hG h
      rw [h7]
      constructor
      · rintro ⟨_, hw⟩
        exact absurd hw (by simp)
      · rintro ⟨c, hc, hn⟩
        exact absurd (h c hc) hn
    · rw [decrypt_built hG, if_neg h]
      exact ⟨fun _ => hnot h, fun _ => ⟨_, rfl⟩⟩
  · constructor
    · rintro ⟨ct, hct⟩
      exact (decrypt_ok_length hne hG hct).1
    · intro _ h
      obtain ⟨_, ct, _, _, _, _, _, _, h7⟩ := decrypt_valid hne hG h
      exact ⟨ct, by rw [h7]⟩
  · rw [encrypt_built hG, if_pos (by simp)]
    rfl
  · rw [decrypt_built hG, if_pos (by simp)]
    rfl

/-- C8 at key "БВ" and the texts "АbВ" (rejected) and "АБВ" (returned). -/
theorem gronsfeld_text_errors_witness :
    "БВ".toList ≠ [] ∧
    modAlphaCipher.new "БВ".toList
      = .ok ⟨numAlphaInit, fillAlphaNum numAlphaInit 0 [], [1, 2]⟩ ∧
    (∃ what, ((modAlphaCipher.mk numAlphaInit (fillAlphaNum numAlphaInit 0 []) [1, 2]).encrypt
      "АbВ".toList).1 = .error (.invalid_argument what)) ∧
    (∃ what, ((modAlphaCipher.mk numAlphaInit (fillAlphaNum numAlphaInit 0 []) [1, 2]).decrypt
      "АbВ".toList).1 = .error (.invalid_argument what)) ∧
    "АБВ".toList.length < 2 ^ 32 ∧
    (∃ ct, ((modAlphaCipher.mk numAlphaInit (fillAlphaNum numAlphaInit 0 []) [1, 2]).encrypt
      "АБВ".toList).1 = .ok ct) :=
  have h := gronsfeld_text_errors "БВ".toList "АbВ".toList
    ⟨numAlphaInit, fillAlphaNum numAlphaInit 0 [], [1, 2]⟩ (by decide) (by rfl)
  have g := gronsfeld_text_errors "БВ".toList "АБВ".toList
    ⟨numAlphaInit, fillAlphaNum numAlphaInit 0 [], [1, 2]⟩ (by decide) (by rfl)
  ⟨by decide, by rfl, h.1.2 ⟨'b', by decide, by decide⟩,
    h.2.2.1.2 ⟨'b', by decide, by decide⟩, by decide, g.2.1.2 (by decide) (by decide)⟩

/-- C9. Length preservation. Whenever `encrypt` or `decrypt` returns (Gronsfeld cipher
constructed from a non-empty key, permutation cipher constructed from any accepted key),
the result has as many symbols as the input. For the permutation cipher the call returns
only after `validateText` returned, and then the search in the loop finds every
character of the text, so that no symbol is skipped. -/
theorem length_preservation (skey text : List Char) :
    (∀ G, skey ≠ [] → modAlphaCipher.new skey = .ok G →
      (∀ r, (G.encrypt text).1 = .ok r → r.length = text.length) ∧
      (∀ r, (G.decrypt text).1 = .ok r → r.length = text.length)) ∧
    (∀ P, modPermutationCipher.new skey = .ok P →
      (P.validateText text = .ok () → ∀ c ∈ text, (wstring_find P.alphabet c).isSome) ∧
      (∀ r, P.encrypt text = .ok r → P.validateText text = .ok () ∧ r.length = text.length) ∧
      (∀ r, P.decrypt text = .ok r →
        P.validateText text = .ok () ∧ r.length = text.length)) := by
  refine ⟨fun G hne hG => ⟨fun r hr => (encrypt_ok_length hne hG hr).2,
    fun r hr => (decrypt_ok_length hne hG hr).2⟩, fun P hP => ⟨?_, fun r hr =>
    perm_encrypt_ok_length hP hr, fun r hr => perm_decrypt_ok_length hP hr⟩⟩
  intro hv c hc
  exact wstring_find_isSome_iff.2 (((validateText_ok_iff P text).1 hv).2 c hc)

/-- C9 at the texts "ЯЁА" (Gronsfeld, key "БВ") and "12" / "zАbЯ" (permutation). -/
theorem length_preservation_witness :
    (∃ r, ((modAlphaCipher.mk numAlphaInit (fillAlphaNum numAlphaInit 0 []) [1, 2]).encrypt
      "ЯЁА".toList).1 = .ok r ∧ r.length = 3) ∧
    (∃ r, (modPermutationCipher.mk alphabetInit [1, 2]).decrypt "zАbЯ".toList = .ok r ∧
      r.length = 4) :=
  ⟨⟨"АЗБ".toList, by rfl,
    ((length_preservation "БВ".toList "ЯЁА".toList).1 _ (by decide) (by rfl)).1 _ (by rfl)⟩,
   ⟨"yyaЭ".toList, by rfl,
    (((length_preservation "12".toList "zАbЯ".toList).2 _ (by rfl)).2.2 _ (by rfl)).2⟩⟩

/-- C10. The Gronsfeld cipher constructed from the key "БВ" has the shift sequence 1, 2;
it encrypts "АБ" to "БГ" and decrypts "БГ" to "АБ". -/
theorem gronsfeld_vector :
    ∃ G, modAlphaCipher.new "БВ".toList = .ok G ∧ G.key = [1, 2] ∧
      (G.encrypt "АБ".toList).1 = .ok "БГ".toList ∧
      (G.decrypt "БГ".toList).1 = .ok "АБ".toList :=
  ⟨⟨numAlphaInit, fillAlphaNum numAlphaInit 0 [], [1, 2]⟩, by rfl, by rfl, by rfl, by rfl⟩

/-- C11. The permutation cipher constructed from the key "12" has the shift sequence
1, 2; the combined alphabet has "А" at index 0 and "Б" at index 1; the cipher encrypts
"АБ" to "БГ", which is also what the Gronsfeld cipher constructed from "БВ" returns
for "АБ". -/
theorem permutation_vector :
    ∃ P G, modPermutationCipher.new "12".toList = .ok P ∧ P.key = [1, 2] ∧
      wstring_find P.alphabet 'А' = some 0 ∧ wstring_find P.alphabet 'Б' = some 1 ∧
      P.encrypt "АБ".toList = .ok "БГ".toList ∧
      modAlphaCipher.new "БВ".toList = .ok G ∧
      (G.encrypt "АБ".toList).1 = .ok "БГ".toList :=
  ⟨⟨alphabetInit, [1, 2]⟩, ⟨numAlphaInit, fillAlphaNum numAlphaInit 0 [], [1, 2]⟩,
    by rfl, by rfl, by rfl, by rfl, by rfl, by rfl, by rfl⟩

/-- C12. The constructor of the Gronsfeld cipher returns an object for the empty key
descriptor, and the key of that object is empty. On it `encrypt` and `decrypt` return
the empty text for the empty text, and for every non-empty text of alphabet symbols
they come to `i % key.size()` with `key.size() == 0`, the remainder by zero. -/
theorem gronsfeld_empty_key :
    ∃ G, modAlphaCipher.new [] = .ok G ∧ G.key = [] ∧
      (G.encrypt []).1 = .ok [] ∧ (G.decrypt []).1 = .ok [] ∧
      ∀ text : List Char, text ≠ [] → (∀ c ∈ text, c ∈ numAlphaInit) →
        (G.encrypt text).1 = .error .division_by_zero ∧
        (G.decrypt text).1 = .error .division_by_zero := by
  have hG : modAlphaCipher.new [] = .ok
      { numAlpha := numAlphaInit, alphaNum := fillAlphaNum numAlphaInit 0 [], key := [] } := by
    rfl
  refine ⟨_, hG, rfl, by rfl, by rfl, ?_⟩
  intro text hne ht
  cases text with
  | nil => exact absurd rfl hne
  | cons c text =>
    constructor
    · rw [encrypt_built hG, if_pos ht]
      rfl
    · rw [decrypt_built hG, if_pos ht]
      rfl

/-- C13. Alphabet invariant. The combined alphabet is the Gronsfeld alphabet followed by
the letters a to z, and in both alphabets every symbol occurs exactly once. In a
constructed Gronsfeld cipher the table sends every alphabet symbol to an index at which
the alphabet holds that symbol, has no other key, and sends the symbol at every index
below the alphabet length to that index. In a constructed permutation cipher the first-occurrence search
does the same for the combined alphabet. -/
theorem alphabet_invariant :
    alphabetInit = numAlphaInit ++ "abcdefghijklmnopqrstuvwxyz".toList ∧
    (∀ c ∈ numAlphaInit, numAlphaInit.count c = 1) ∧
    (∀ c ∈ alphabetInit, alphabetInit.count c = 1) ∧
    (∀ skey G, modAlphaCipher.new skey = .ok G →
      G.numAlpha = numAlphaInit ∧
      (∀ c, (G.alphaNum.find c).isSome ↔ c ∈ G.numAlpha) ∧
      (∀ c ∈ G.numAlpha, ∃ i : Nat,
        G.alphaNum.find c = some (i : Int) ∧ G.numAlpha[i]? = some c) ∧
      (∀ i : Nat, i < G.numAlpha.length →
        ∃ c, G.numAlpha[i]? = some c ∧ G.alphaNum.find c = some (i : Int))) ∧
    (∀ skey P, modPermutationCipher.new skey = .ok P →
      P.alphabet = alphabetInit ∧
      (∀ c ∈ P.alphabet, ∃ i : Nat,
        wstring_find P.alphabet c = some i ∧ P.alphabet[i]? = some c) ∧
      (∀ i : Nat, i < P.alphabet.length →
        ∃ c, P.alphabet[i]? = some c ∧ wstring_find P.alphabet c = some i)) := by
  refine ⟨by rfl, fun c hc => List.count_eq_one_of_mem numAlpha_nodup hc,
    fun c hc => List.count_eq_one_of_mem alphabet_nodup hc, ?_, ?_⟩
  · intro skey G hG
    obtain ⟨_, hA, hM, _⟩ := new_ok hG
    rw [hA, hM]
    refine ⟨rfl, ?_, ?_, ?_⟩
    · intro c
      by_cases hc : c ∈ numAlphaInit
      · rw [alphaNum_find_of_mem c hc]
        exact ⟨fun _ => hc, fun _ => rfl⟩
      · rw [alphaNum_find_of_not_mem hc]
        exact ⟨fun h => absurd h (by simp), fun h => absurd h hc⟩
    · intro c hc
      exact ⟨numAlphaInit.indexOf c, alphaNum_find_of_mem c hc,
        (numAlpha_getElem_indexOf c hc).2⟩
    · intro i hi
      exact alphaNum_find_getElem (by simpa using hi)
  · intro skey P hP
    obtain ⟨_, _, hA, _⟩ := perm_new_ok hP
    rw [hA]
    refine ⟨rfl, ?_, ?_⟩
    · intro c hc
      obtain ⟨i, hf, _, hget⟩ := wstring_find_of_mem hc
      exact ⟨i, hf, hget⟩
    · intro i hi
      obtain ⟨c, _, hget, hf⟩ := alphabet_find_getElem i (by simpa using hi)
      exact ⟨c, hget, hf⟩

/-- C14. Key immutability. For every object and every text, `encrypt` and `decrypt` leave
the object as it was, in particular its key and its table `alphaNum`, whether they
return or throw; the read `alphaNum[c]` in `convert` is only reached for a key that
`find` has found and so inserts nothing. Hence a second `encrypt` of the same text on
the same object has the outcome of the first. (For the two outcomes that are undefined
behaviour in C++ the object meant is the one at the point where they arise.) -/
theorem gronsfeld_key_immutable (self : modAlphaCipher) (text : List Char) :
    (self.encrypt text).2 = self ∧ (self.decrypt text).2 = self ∧
    (self.encrypt text).2.key = self.key ∧ (self.encrypt text).2.alphaNum = self.alphaNum ∧
    (self.decrypt text).2.key = self.key ∧ (self.decrypt text).2.alphaNum = self.alphaNum ∧
    (self.convert_wstring text).2.alphaNum = self.alphaNum ∧
    ((self.encrypt text).2.encrypt text).1 = (self.encrypt text).1 := by
  have he := encrypt_snd self text
  have hd := decrypt_snd self text
  refine ⟨he, hd, by rw [he], by rw [he], by rw [hd], by rw [hd], ?_, by rw [he]⟩
  rw [convert_wstring_eq]

/-- C15. Closure of the combined alphabet. For a constructed permutation cipher and a
text `validateText` accepts, `encrypt` and `decrypt` return texts that `validateText`
accepts again (non-empty, every symbol in the combined alphabet), and `decrypt` returns
on the text `encrypt` returned. -/
theorem permutation_closure (skey text : List Char) (P : modPermutationCipher)
    (hP : modPermutationCipher.new skey = .ok P) (hv : P.validateText text = .ok ()) :
    ∃ ct pt, P.encrypt text = .ok ct ∧ P.validateText ct = .ok () ∧
      ct ≠ [] ∧ (∀ c ∈ ct, c ∈ alphabetInit) ∧
      P.decrypt text = .ok pt ∧ P.validateText pt = .ok () ∧
      pt ≠ [] ∧ (∀ c ∈ pt, c ∈ alphabetInit) ∧
      ∃ r, P.decrypt ct = .ok r := by
  obtain ⟨_, _, hA, _⟩ := perm_new_ok hP
  obtain ⟨hne, ht⟩ := (validateText_ok_iff P text).1 hv
  rw [hA] at ht
  obtain ⟨ct, h1, h2, h3, h4⟩ := perm_encrypt_valid hP hne ht
  obtain ⟨pt, g1, g2, g3, _⟩ := perm_decrypt_valid hP hne ht
  have hct : ct ≠ [] := by
    intro h
    rw [h] at h2
    exact hne (List.length_eq_zero.1 h2.symm)
  have hpt : pt ≠ [] := by
    intro h
    rw [h] at g2
    exact hne (List.length_eq_zero.1 g2.symm)
  refine ⟨ct, pt, h1, ?_, hct, h3, g1, ?_, hpt, g3, ⟨text, h4⟩⟩
  · exact (validateText_ok_iff P ct).2 ⟨hct, by rw [hA]; exact h3⟩
  · exact (validateText_ok_iff P pt).2 ⟨hpt, by rw [hA]; exact g3⟩

/-- C15 at key "12" and text "zАb". -/
theorem permutation_closure_witness :
    modPermutationCipher.new "12".toList = .ok ⟨alphabetInit, [1, 2]⟩ ∧
    (modPermutationCipher.mk alphabetInit [1, 2]).validateText "zАb".toList = .ok () ∧
    ∃ ct pt, (modPermutationCipher.mk alphabetInit [1, 2]).encrypt "zАb".toList = .ok ct ∧
      (modPermutationCipher.mk alphabetInit [1, 2]).validateText ct = .ok () ∧
      ct ≠ [] ∧ (∀ c ∈ ct, c ∈ alphabetInit) ∧
      (modPermutationCipher.mk alphabetInit [1, 2]).decrypt "zАb".toList = .ok pt ∧
      (modPermutationCipher.mk alphabetInit [1, 2]).validateText pt = .ok () ∧
      pt ≠ [] ∧ (∀ c ∈ pt, c ∈ alphabetInit) ∧
      ∃ r, (modPermutationCipher.mk alphabetInit [1, 2]).decrypt ct = .ok r :=
  ⟨by rfl, by rfl,
    permutation_closure "12".toList "zАb".toList ⟨alphabetInit, [1, 2]⟩ (by rfl) (by rfl)⟩

/-- C16. Reverse round trip of the Gronsfeld cipher. For a non-empty key of alphabet
symbols the constructor returns an object on which, for every text of alphabet symbols
of fewer than `2 ^ 32` symbols (the range of the loop counter `unsigned i`), `decrypt`
returns a text of alphabet symbols of the same length that `encrypt` takes back to the
text, and likewise with the two members exchanged; two texts with the same ciphertext,
or with the same decryption, are equal. So `encrypt` and `decrypt` are bijections,
inverse to each other, on the texts of alphabet symbols of each length below `2 ^ 32`. -/
theorem gronsfeld_reverse_round_trip (skey : List Char) (hne : skey ≠ [])
    (hkey : ∀ c ∈ skey, c ∈ numAlphaInit) :
    ∃ G, modAlphaCipher.new skey = .ok G ∧
      (∀ text : List Char, text.length < 2 ^ 32 → (∀ c ∈ text, c ∈ numAlphaInit) →
        ∃ pt, (G.decrypt text).1 = .ok pt ∧ pt.length = text.length ∧
          (∀ c ∈ pt, c ∈ numAlphaInit) ∧
          ((G.decrypt text).2.encrypt pt).1 = .ok text) ∧
      (∀ text : List Char, text.length < 2 ^ 32 → (∀ c ∈ text, c ∈ numAlphaInit) →
        ∃ ct, (G.encrypt text).1 = .ok ct ∧ ct.length = text.length ∧
          (∀ c ∈ ct, c ∈ numAlphaInit) ∧
          ((G.encrypt text).2.decrypt ct).1 = .ok text) ∧
      (∀ t1 t2 r : List Char,
        (G.encrypt t1).1 = .ok r → (G.encrypt t2).1 = .ok r → t1 = t2) ∧
      (∀ t1 t2 r : List Char,
        (G.decrypt t1).1 = .ok r → (G.decrypt t2).1 = .ok r → t1 = t2) := by
  have hG : modAlphaCipher.new skey = .ok
      { numAlpha := numAlphaInit, alphaNum := fillAlphaNum numAlphaInit 0 [],
        key := skey.map fun c => ((numAlphaInit.indexOf c : Nat) : Int) } := by
    rw [new_eq, if_pos hkey]
  refine ⟨_, hG, fun text _ ht => decrypt_then_encrypt hne hG ht,
    fun text _ ht => encrypt_then_decrypt hne hG ht, ?_, ?_⟩
  · intro t1 t2 r h1 h2
    obtain ⟨c1, e1, _, _, d1⟩ := encrypt_then_decrypt hne hG (encrypt_ok_length hne hG h1).1
    obtain ⟨c2, e2, _, _, d2⟩ := encrypt_then_decrypt hne hG (encrypt_ok_length hne hG h2).1
    rw [h1, Except.ok.injEq] at e1
    rw [h2, Except.ok.injEq] at e2
    subst e1
    subst e2
    rw [encrypt_snd] at d1 d2
    rw [d1, Except.ok.injEq] at d2
    exact d2
  · intro t1 t2 r h1 h2
    obtain ⟨c1, e1, _, _, d1⟩ := decrypt_then_encrypt hne hG (decrypt_ok_length hne hG h1).1
    obtain ⟨c2, e2, _, _, d2⟩ := decrypt_then_encrypt hne hG (decrypt_ok_length hne hG h2).1
    rw [h1, Except.ok.injEq] at e1
    rw [h2, Except.ok.injEq] at e2
    subst e1
    subst e2
    rw [decrypt_snd] at d1 d2
    rw [d1, Except.ok.injEq] at d2
    exact d2

/-- C16 at key "БВ" and text "ЯЁА". -/
theorem gronsfeld_reverse_round_trip_witness :
    "БВ".toList ≠ [] ∧ (∀ c ∈ "БВ".toList, c ∈ numAlphaInit) ∧
    "ЯЁА".toList.length < 2 ^ 32 ∧ (∀ c ∈ "ЯЁА".toList, c ∈ numAlphaInit) ∧
    ∃ pt, ((modAlphaCipher.mk numAlphaInit (fillAlphaNum numAlphaInit 0 []) [1, 2]).decrypt
        "ЯЁА".toList).1 = .ok pt ∧
      ((modAlphaCipher.mk numAlphaInit (fillAlphaNum numAlphaInit 0 []) [1, 2]).encrypt pt).1
        = .ok "ЯЁА".toList :=
  ⟨by decide, by decide, by decide, by decide,
    (gronsfeld_reverse_round_trip "БВ".toList (by decide) (by decide)).elim
      fun G h => by
        have hG : G = ⟨numAlphaInit, fillAlphaNum numAlphaInit 0 [], [1, 2]⟩ := by
          have h0 := h.1
          have h1 : modAlphaCipher.new "БВ".toList
              = .ok ⟨numAlphaInit, fillAlphaNum numAlphaInit 0 [], [1, 2]⟩ := by rfl
          rw [h1, Except.ok.injEq] at h0
          exact h0.symm
        subst hG
        obtain ⟨pt, h1, _, _, h4⟩ := h.2.1 "ЯЁА".toList (by decide) (by decide)
        rw [decrypt_snd] at h4
        exact ⟨pt, h1, h4⟩⟩

/-- C17. Key periodicity of the Gronsfeld cipher. For a non-empty key descriptor `K` of
alphabet symbols and `n ≥ 1`, the constructor returns an object for `K` and one for `K`
written `n` times in a row, and on every text of alphabet symbols of fewer than
`2 ^ 32` symbols (the range of the loop counter `unsigned i`) `encrypt` returns the
same text on both objects, and so does `decrypt`. -/
theorem gronsfeld_key_periodicity (K text : List Char) (n : Nat) (hne : K ≠ [])
    (hkey : ∀ c ∈ K, c ∈ numAlphaInit) (hn : 1 ≤ n)
    (htext : ∀ c ∈ text, c ∈ numAlphaInit) (_ : text.length < 2 ^ 32) :
    ∃ G Gn ct pt, modAlphaCipher.new K = .ok G ∧
      modAlphaCipher.new (List.replicate n K).flatten = .ok Gn ∧
      (G.encrypt text).1 = .ok ct ∧ (Gn.encrypt text).1 = .ok ct ∧
      (G.decrypt text).1 = .ok pt ∧ (Gn.decrypt text).1 = .ok pt := by
  have hkeyn : ∀ c ∈ (List.replicate n K).flatten, c ∈ numAlphaInit := by
    intro c hc
    obtain ⟨l, hl, hcl⟩ := List.mem_flatten.1 hc
    rw [(List.mem_replicate.1 hl).2] at hcl
    exact hkey c hcl
  have hnen : (List.replicate n K).flatten ≠ [] := by
    intro h
    have := length_flatten_replicate K n
    rw [h] at this
    have hlen : 0 < K.length := List.length_pos.2 hne
    have hpos : 0 < n * K.length := Nat.mul_pos hn hlen
    simp only [List.length_nil] at this
    omega
  have hG : modAlphaCipher.new K = .ok
      { numAlpha := numAlphaInit, alphaNum := fillAlphaNum numAlphaInit 0 [],
        key := K.map fun c => ((numAlphaInit.indexOf c : Nat) : Int) } := by
    rw [new_eq, if_pos hkey]
  have hGn : modAlphaCipher.new (List.replicate n K).flatten = .ok
      { numAlpha := numAlphaInit, alphaNum := fillAlphaNum numAlphaInit 0 [],
        key := (List.replicate n K).flatten.map
          fun c => ((numAlphaInit.indexOf c : Nat) : Int) } := by
    rw [new_eq, if_pos hkeyn]
  have hk1 : (K.map fun c => ((numAlphaInit.indexOf c : Nat) : Int)) ≠ [] := by
    simpa using hne
  have hk2 : ((List.replicate n K).flatten.map
      fun c => ((numAlphaInit.indexOf c : Nat) : Int)) ≠ [] := by
    simpa using hnen
  have hacc : ∀ i,
      ((List.replicate n K).flatten.map
        fun c => ((numAlphaInit.indexOf c : Nat) : Int))[i %
          ((List.replicate n K).flatten.map
            fun c => ((numAlphaInit.indexOf c : Nat) : Int)).length]?
        = (K.map fun c => ((numAlphaInit.indexOf c : Nat) : Int))[i %
          (K.map fun c => ((numAlphaInit.indexOf c : Nat) : Int)).length]? := by
    intro i
    rw [List.map_flatten, List.map_replicate]
    exact key_access_repeated _ n i hk1 hn
  obtain ⟨ct, e1, _⟩ := encrypt_then_decrypt hne hG htext
  obtain ⟨pt, d1, _⟩ := decrypt_then_encrypt hne hG htext
  refine ⟨_, _, ct, pt, hG, hGn, e1, ?_, d1, ?_⟩
  · rw [← e1, encrypt_built hGn, encrypt_built hG]
    simp only [encryptLoop_congr 33 hk2 hk1 hacc]
  · rw [← d1, decrypt_built hGn, decrypt_built hG]
    simp only [decryptLoop_congr 33 hk2 hk1 hacc]

/-- C17 at key "БВ" written twice and text "ЯЁАБ". -/
theorem gronsfeld_key_periodicity_witness :
    "БВ".toList ≠ [] ∧ (∀ c ∈ "БВ".toList, c ∈ numAlphaInit) ∧ 1 ≤ 2 ∧
    (∀ c ∈ "ЯЁАБ".toList, c ∈ numAlphaInit) ∧ "ЯЁАБ".toList.length < 2 ^ 32 ∧
    ∃ G Gn ct pt, modAlphaCipher.new "БВ".toList = .ok G ∧
      modAlphaCipher.new (List.replicate 2 "БВ".toList).flatten = .ok Gn ∧
      (G.encrypt "ЯЁАБ".toList).1 = .ok ct ∧ (Gn.encrypt "ЯЁАБ".toList).1 = .ok ct ∧
      (G.decrypt "ЯЁАБ".toList).1 = .ok pt ∧ (Gn.decrypt "ЯЁАБ".toList).1 = .ok pt :=
  ⟨by decide, by decide, by decide, by decide, by decide,
    gronsfeld_key_periodicity "БВ".toList "ЯЁАБ".toList 2 (by decide) (by decide)
      (by decide) (by decide) (by decide)⟩

/-- C18. Unsigned arithmetic of `modPermutationCipher::decrypt`. For an index below the
length `N` of the combined alphabet and a shift from 0 to 9, the value of
`(index - shift + N) % N` in 64-bit unsigned arithmetic (shift converted to `size_t`,
the difference wrapping modulo `2 ^ 64` when `index < shift`) is the integer
`(index - shift + N) mod N`; it is below `N`, and the loop of `decrypt` appends the
alphabet symbol at that index. -/
theorem permutation_decrypt_unsigned (index : Nat) (shift : Int)
    (hi : index < alphabetInit.length) (hs : 0 ≤ shift ∧ shift ≤ 9) :
    ((((index + 2 ^ 64 - toSizeT shift) % 2 ^ 64 + alphabetInit.length) % 2 ^ 64
        % alphabetInit.length : Nat) : Int)
      = ((index : Int) - shift + (alphabetInit.length : Int)) % (alphabetInit.length : Int) ∧
    ((index + 2 ^ 64 - toSizeT shift) % 2 ^ 64 + alphabetInit.length) % 2 ^ 64
      % alphabetInit.length < alphabetInit.length ∧
    (index < toSizeT shift →
      (index + 2 ^ 64 - toSizeT shift) % 2 ^ 64 = 2 ^ 64 - (toSizeT shift - index)) ∧
    ∀ c : Char, wstring_find alphabetInit c = some index →
      ∃ sym, permDecryptLoop alphabetInit [shift] 0 [c] = .ok [sym] ∧
        alphabetInit[(((index : Int) - shift + (alphabetInit.length : Int))
          % (alphabetInit.length : Int)).toNat]? = some sym := by
  have hlen : alphabetInit.length = 59 := by decide
  obtain ⟨b, rfl⟩ := Int.eq_ofNat_of_zero_le hs.1
  have hb : b ≤ 9 := by omega
  have hsz : toSizeT (b : Int) = b := toSizeT_natCast (by omega)
  have hval := @perm_decrypt_index_exact index alphabetInit.length b
    (by rw [hlen]; norm_num) (by rw [hlen]; norm_num) hi hb
  have hlt : ((index + 2 ^ 64 - b) % 2 ^ 64 + alphabetInit.length) % 2 ^ 64
      % alphabetInit.length < alphabetInit.length :=
    Nat.mod_lt _ (by omega)
  rw [hsz]
  refine ⟨hval, hlt, fun h => perm_decrypt_wrap h hb, ?_⟩
  intro c hf
  have hget := List.getElem?_eq_getElem hlt
  have hne : alphabetInit.length ≠ 0 := by omega
  refine ⟨alphabetInit[((index + 2 ^ 64 - b) % 2 ^ 64 + alphabetInit.length) % 2 ^ 64
    % alphabetInit.length], ?_, ?_⟩
  · simp only [permDecryptLoop, hf, List.length_singleton, Nat.mod_one, hne, hsz,
      List.getElem?_cons_zero, hget, if_false, Nat.succ_ne_zero]
  · rw [← hval, Int.toNat_ofNat]
    exact hget

/-- C18 at index 3 and shift 9, where the unsigned difference wraps. -/
theorem permutation_decrypt_unsigned_witness :
    3 < alphabetInit.length ∧ ((0 : Int) ≤ 9 ∧ (9 : Int) ≤ 9) ∧
    (3 + 2 ^ 64 - toSizeT 9) % 2 ^ 64 = 2 ^ 64 - 6 ∧
    ((((3 + 2 ^ 64 - toSizeT 9) % 2 ^ 64 + alphabetInit.length) % 2 ^ 64
        % alphabetInit.length : Nat) : Int) = 53 ∧
    (((3 : Nat) : Int) - 9 + (alphabetInit.length : Int)) % (alphabetInit.length : Int) = 53 ∧
    permDecryptLoop alphabetInit [9] 0 ['Г'] = .ok ['u'] :=
  have h := permutation_decrypt_unsigned 3 9 (by decide) (by decide)
  ⟨by decide, by decide, by decide, by decide, h.1.symm.trans (by decide), by rfl⟩

/-- C19. Index safety of the Gronsfeld cipher. For an object constructed from a
non-empty key and a text of alphabet symbols: every access `key[i % key.size()]` is
inside the key; when the text has fewer than `2 ^ 32` symbols (the range of the loop
counter `unsigned i`) the loops of `encrypt` and `decrypt` run to their end and leave
only indices below `numAlpha.size()` in `work`, and the conversion of `work` to symbols
returns. On no text at all does `encrypt` or `decrypt` throw "Index out of bounds". -/
theorem gronsfeld_index_safety (skey text : List Char) (G : modAlphaCipher)
    (hne : skey ≠ []) (hG : modAlphaCipher.new skey = .ok G)
    (htext : ∀ c ∈ text, c ∈ numAlphaInit) :
    (∀ i : Nat, i % G.key.length < G.key.length ∧ ∃ k, G.key[i % G.key.length]? = some k) ∧
    (text.length < 2 ^ 32 → ∃ w work ct, (G.convert_wstring text).1 = .ok w ∧
      encryptLoop G.key G.numAlpha.length 0 w = .ok work ∧
      (∀ v ∈ work, toSizeT v < G.numAlpha.length) ∧
      convert_vector G.numAlpha work = .ok ct ∧ (G.encrypt text).1 = .ok ct) ∧
    (text.length < 2 ^ 32 → ∃ w work pt, (G.convert_wstring text).1 = .ok w ∧
      decryptLoop G.key G.numAlpha.length 0 w = .ok work ∧
      (∀ v ∈ work, toSizeT v < G.numAlpha.length) ∧
      convert_vector G.numAlpha work = .ok pt ∧ (G.decrypt text).1 = .ok pt) ∧
    (∀ t : List Char,
      (G.encrypt t).1 ≠ .error (.invalid_argument "Index out of bounds") ∧
      (G.decrypt t).1 ≠ .error (.invalid_argument "Index out of bounds")) := by
  obtain ⟨_, hA, hM, _⟩ := new_ok hG
  obtain ⟨hk1, _⟩ := key_built hne hG
  have hlen : numAlphaInit.length = 33 := by decide
  have hconv : (G.convert_wstring text).1
      = .ok (text.map fun c => ((numAlphaInit.indexOf c : Nat) : Int)) := by
    rw [convert_wstring_built G hM, if_pos htext]
  have hbound : ∀ work : List Int, (∀ v ∈ work, 0 ≤ v ∧ v < ((33 : Nat) : Int)) →
      ∀ v ∈ work, toSizeT v < 33 :=
    fun work hw v hv => (toSizeT_of_bounds (hw v hv).1 (hw v hv).2 (by norm_num)).1
  refine ⟨?_, ?_, ?_, ?_⟩
  · intro i
    obtain ⟨k, _, hk⟩ := key_access hk1 i
    exact ⟨Nat.mod_lt _ (List.length_pos.2 hk1), k, hk⟩
  · intro _
    obtain ⟨r, ct, h1, h2, _, h4, _, _, h7⟩ := encrypt_valid hne hG htext
    rw [hA, hlen]
    exact ⟨_, r, ct, hconv, h1, hbound r h2, h4, by rw [h7]⟩
  · intro _
    obtain ⟨r, pt, h1, h2, _, h4, _, _, h7⟩ := decrypt_valid hne hG htext
    rw [hA, hlen]
    exact ⟨_, r, pt, hconv, h1, hbound r h2, h4, by rw [h7]⟩
  · intro t
    by_cases ht : ∀ c ∈ t, c ∈ numAlphaInit
    · obtain ⟨_, ct, _, _, _, _, _, _, h7⟩ := encrypt_valid hne hG ht
      obtain ⟨_, pt, _, _, _, _, _, _, g7⟩ := decrypt_valid hne hG ht
      rw [h7, g7]
      exact ⟨by simp, by simp⟩
    · rw [encrypt_built hG, decrypt_built hG, if_neg ht]
      simp only [if_neg ht]
      exact ⟨by decide, by decide⟩

/-- C19 at key "БВ" and text "ЯЁА". -/
theorem gronsfeld_index_safety_witness :
    "БВ".toList ≠ [] ∧
    modAlphaCipher.new "БВ".toList
      = .ok ⟨numAlphaInit, fillAlphaNum numAlphaInit 0 [], [1, 2]⟩ ∧
    (∀ c ∈ "ЯЁА".toList, c ∈ numAlphaInit) ∧ "ЯЁА".toList.length < 2 ^ 32 ∧
    ∃ w work ct,
      ((modAlphaCipher.mk numAlphaInit (fillAlphaNum numAlphaInit 0 []) [1, 2]).convert_wstring
        "ЯЁА".toList).1 = .ok w ∧
      encryptLoop [1, 2] numAlphaInit.length 0 w = .ok work ∧
      (∀ v ∈ work, toSizeT v < numAlphaInit.length) ∧
      convert_vector numAlphaInit work = .ok ct ∧
      ((modAlphaCipher.mk numAlphaInit (fillAlphaNum numAlphaInit 0 []) [1, 2]).encrypt
        "ЯЁА".toList).1 = .ok ct :=
  ⟨by decide, by rfl, by decide, by decide,
    (gronsfeld_index_safety "БВ".toList "ЯЁА".toList
      ⟨numAlphaInit, fillAlphaNum numAlphaInit 0 [], [1, 2]⟩ (by decide) (by rfl)
      (by decide)).2.1 (by decide)⟩
